import Mathlib

/-!
# JurisdictionMap (libraries/octree/src/JurisdictionMap.cpp)

A shallow embedding of the jurisdiction map: the containment query
`isMyJurisdiction`, the wire encoding `packIntoMessage` /
`packEmptyJurisdictionIntoMessage` / `unpackFromMessage`, and the
construction and ownership operations.

Conventions of the embedding

* A byte is a natural number below 256; a buffer or key is a `List Nat`.
* A pointer to a key (`unsigned char*`) is an `Option OctalCode`; `none` is `NULL`.
* `int` is a 32-bit two's complement integer, carried as an `Int` and wrapped by
  `wrapInt32` where the source does arithmetic on it; the width of `size_t` is a
  parameter (`sizeofSizeT`, 8 for LP64 and 4 for ILP32).
* Native integers are laid out in memory least significant byte first.
* A read outside the memory a pointer designates, and an allocation of negative
  size, are undefined behaviour in the source: the embedding returns `none`.
-/

namespace JurisdictionMap

/-! ## Bytes, native integers and memory -/

/-- An octal code: the bytes of a variable-length key, section count first. -/
abbrev OctalCode := List Nat

/-- Width in bytes of `int` (4 in the LP64 and in the ILP32 data model). -/
def sizeofInt : Nat := 4

/-- Width in bytes of `NodeType_t`; the typedef is not part of the sources at hand,
the source packs it "in first byte". -/
def sizeofNodeType : Nat := 1

/-- Width in bytes of `size_t` in the LP64 data model. -/
def lp64 : Nat := 8

/-- Width in bytes of `size_t` in the ILP32 data model. -/
def ilp32 : Nat := 4

/-- The object representation of the unsigned value `v` in `width` bytes, least
significant byte first; the value is reduced modulo `256 ^ width`. -/
def encodeLE : Nat → Nat → List Nat
  | 0, _ => []
  | width + 1, v => (v % 256) :: encodeLE width (v / 256)

/-- The unsigned value of an object representation, least significant byte first. -/
def decodeLE : List Nat → Nat
  | [] => 0
  | b :: rest => b + 256 * decodeLE rest

/-- The value of a `width`-byte two's complement representation. -/
def toSigned (width : Nat) (v : Nat) : Int :=
  if v < 256 ^ width / 2 then (v : Int) else (v : Int) - (256 ^ width : Nat)

/-- Reduction of an integer to the range of a 32-bit `int`. -/
def wrapInt32 (x : Int) : Int :=
  (x + 2147483648) % 4294967296 - 2147483648

/-- Copy of `n` bytes out of `mem` starting at offset `pos` (`memcpy` from a source
buffer); `none` when the range leaves the memory. -/
def readBytes (mem : List Nat) (pos n : Nat) : Option (List Nat) :=
  if pos + n ≤ mem.length then some ((mem.drop pos).take n) else none

/-- Read of a native `int` at offset `pos` (`memcpy(&x, p, sizeof(x))` for `int x`). -/
def readInt (mem : List Nat) (pos : Nat) : Option Int :=
  (readBytes mem pos sizeofInt).map (fun bs => toSigned sizeofInt (decodeLE bs))

/-! ## Octal code helpers (OctalCode.h, not part of the sources at hand) -/

/-- Modelled from the spec: `numberOfThreeBitSectionsInCode` of OctalCode.h is missing;
"the first byte encodes how many sections are present (a count)". A key without a
first byte is read as having no section. -/
def numberOfThreeBitSectionsInCode (octalCode : OctalCode) : Nat :=
  octalCode.headD 0

/-- Modelled from the spec: `bytesRequiredForCodeLength` of OctalCode.h is missing;
"Byte length of an address is a pure function of the section count": one count byte,
then the sections packed "3 bits at a time, byte-aligned with padding in the final
byte", so that the key with no section has length 1. -/
def bytesRequiredForCodeLength (threeBitCodes : Nat) : Nat :=
  1 + (3 * threeBitCodes + 7) / 8

/-- Modelled from the spec: the section accessor of OctalCode.h is missing; section
number `i` is the 3-bit value at bit offset `3 * i` of the bytes that follow the count
byte, most significant bit first. Bytes the key does not have read as 0. -/
def getOctalCodeSectionValue (octalCode : OctalCode) (i : Nat) : Nat :=
  let bit := fun (k : Nat) => (octalCode.getD (1 + k / 8) 0 / 2 ^ (7 - k % 8)) % 2
  4 * bit (3 * i) + 2 * bit (3 * i + 1) + bit (3 * i + 2)

/-- The branch sequence of a key: its sections in order from the root of the space. -/
def sectionsOf (octalCode : OctalCode) : List Nat :=
  (List.range (numberOfThreeBitSectionsInCode octalCode)).map (getOctalCodeSectionValue octalCode)

/-- Modelled from the spec: `isAncestorOf` of OctalCode.h is missing; "containment
predicate over two octal addresses, true if one's branch sequence is a prefix of the
other's (or equal)", "optionally restricted to descend specifically through
childIndexHint's branch when provided": with a child index the descendant is the
given key extended by that section. The spec does not describe absent keys; an absent
key has no branch sequence and the test is false. -/
def isAncestorOf (possibleAncestor possibleDescendent : Option OctalCode)
    (descendentsChild : Option Nat) : Bool :=
  match possibleAncestor, possibleDescendent with
  | some a, some d => (sectionsOf a).isPrefixOf (sectionsOf d ++ descendentsChild.toList)
  | _, _ => false

/-- The key with the given branch sequence: the count byte followed by the sections
packed three bits each, most significant bit first, zero padded. -/
def octalCodeOfSections (secs : List Nat) : OctalCode :=
  let bits := secs.flatMap (fun s => [s / 4 % 2, s / 2 % 2, s % 2])
  let byteAt := fun (j : Nat) =>
    (List.range 8).foldl (fun acc k => 2 * acc + bits.getD (8 * j + k) 0) 0
  secs.length :: (List.range ((3 * secs.length + 7) / 8)).map byteAt

/-- The degenerate root key: a single zero byte, no section. -/
def rootKey : OctalCode := [0]

/-- The key "child `i` of root": one section of value `i`. -/
def childOfRoot (i : Nat) : OctalCode := octalCodeOfSections [i]

/-- A key whose byte length is the one implied by its section count and whose
entries are bytes. -/
def ValidOctalCode (octalCode : OctalCode) : Prop :=
  octalCode.length = bytesRequiredForCodeLength (numberOfThreeBitSectionsInCode octalCode)
    ∧ ∀ b ∈ octalCode, b < 256

instance (octalCode : OctalCode) : Decidable (ValidOctalCode octalCode) := by
  unfold ValidOctalCode; infer_instance

/-! ## The map -/

/-- The result of the containment query (`JurisdictionMap::Area`). -/
inductive Area where
  | ABOVE
  | WITHIN
  | BELOW
  deriving DecidableEq, Repr

end JurisdictionMap

/-- The state of a `JurisdictionMap` object: `_nodeType`, `_rootOctalCode`, `_endNodes`. -/
structure JurisdictionMap where
  nodeType : Nat
  rootOctalCode : Option JurisdictionMap.OctalCode
  endNodes : List (Option JurisdictionMap.OctalCode)
  deriving DecidableEq, Repr

namespace JurisdictionMap

/-- Lines 84-96, `clear`: the root and every end node are released; the node type stays. -/
def clear (m : JurisdictionMap) : JurisdictionMap :=
  { m with rootOctalCode := none, endNodes := [] }

/-- Lines 181-185, `init`: clears, then takes over the given root and end nodes. -/
def init (m : JurisdictionMap) (rootOctalCode : Option OctalCode)
    (endNodes : List (Option OctalCode)) : JurisdictionMap :=
  { (clear m) with rootOctalCode := rootOctalCode, endNodes := endNodes }

/-- Lines 98-105, `JurisdictionMap(NodeType_t type)`: root is a fresh one-byte key of
value 0, no end nodes. -/
def ofNodeType (type : Nat) : JurisdictionMap :=
  init { nodeType := type, rootOctalCode := none, endNodes := [] } (some [0]) []

/-- Lines 199-205, the scan of the end nodes: true as soon as one end node is an
ancestor of the node (the `break`), false when the list is exhausted. -/
def isUnderEndNode : List (Option OctalCode) → Option OctalCode → Bool
  | [], _ => false
  | endNode :: rest, nodeOctalCode =>
    if isAncestorOf endNode nodeOctalCode none then true
    else isUnderEndNode rest nodeOctalCode

/-- Lines 187-208, `isMyJurisdiction(nodeOctalCode, childIndex)`; `childIndex = none`
is `CHECK_NODE_ONLY`. -/
def isMyJurisdiction (m : JurisdictionMap) (nodeOctalCode : Option OctalCode)
    (childIndex : Option Nat) : Area :=
  if isAncestorOf nodeOctalCode m.rootOctalCode none then Area.ABOVE
  else
    let isInJurisdiction := isAncestorOf m.rootOctalCode nodeOctalCode childIndex
    let isInJurisdiction :=
      if isInJurisdiction then !(isUnderEndNode m.endNodes nodeOctalCode) else isInJurisdiction
    if isInJurisdiction then Area.WITHIN else Area.BELOW

/-! ## Packet header helpers (PacketHeaders.h, not part of the sources at hand) -/

/-- Modelled from the spec: the packet header codec of PacketHeaders.h is missing;
"writeHeader(buffer, packetType) -> headerLength" and "headerLength(buffer) -> int".
`populatePacketHeader` is the byte sequence written for `PacketTypeJurisdiction` (its
length is the returned header length); `numBytesForPacketHeader` is the header length
read off a buffer. -/
structure PacketHeaderCodec where
  populatePacketHeader : List Nat
  numBytesForPacketHeader : List Nat → Nat

/-- The two helpers agree: a buffer that starts with the written header is reported
to have a header of that length. -/
def PacketHeaderCodec.Consistent (codec : PacketHeaderCodec) : Prop :=
  ∀ rest : List Nat,
    codec.numBytesForPacketHeader (codec.populatePacketHeader ++ rest)
      = codec.populatePacketHeader.length

/-- A codec whose header is a fixed byte sequence of fixed length. -/
def fixedHeaderCodec (header : List Nat) : PacketHeaderCodec :=
  { populatePacketHeader := header, numBytesForPacketHeader := fun _ => header.length }

/-! ## Copy -/

/-- Lines 64-71, the loop of `copyContents`: each non-null end node is duplicated over
the byte length implied by its section count; null entries are dropped. -/
def copyEndNodes : List (Option OctalCode) → Option (List (Option OctalCode))
  | [] => some []
  | none :: rest => copyEndNodes rest
  | some endNode :: rest => do
    let bytes := bytesRequiredForCodeLength (numberOfThreeBitSectionsInCode endNode)
    let endNodeCode ← readBytes endNode 0 bytes
    let endNodes ← copyEndNodes rest
    some (some endNodeCode :: endNodes)

/-- Lines 52-73, `copyContents(rootCodeIn, endNodesIn)`. -/
def copyContentsFrom (m : JurisdictionMap) (rootCodeIn : Option OctalCode)
    (endNodesIn : List (Option OctalCode)) : Option JurisdictionMap := do
  let rootCode ← match rootCodeIn with
    | some code =>
      readBytes code 0 (bytesRequiredForCodeLength (numberOfThreeBitSectionsInCode code))
    | none => some [0]
  let endNodes ← copyEndNodes endNodesIn
  some (init m (some rootCode) endNodes)

/-- Lines 75-78, `copyContents(other)`; also the copy constructor (lines 48-50) and
copy assignment (lines 25-28), which only call it. -/
def copyContents (m other : JurisdictionMap) : Option JurisdictionMap :=
  copyContentsFrom { m with nodeType := other.nodeType } other.rootOctalCode other.endNodes

/-! ## Wire encoding -/

/-- Lines 268-284, `packEmptyJurisdictionIntoMessage`: the bytes written from
`bufferStart` on and the returned count `destinationBuffer - bufferStart`. The source
never reads its `availableBytes` argument, which is left out. -/
def packEmptyJurisdictionIntoMessage (codec : PacketHeaderCodec) (type : Nat) :
    List Nat × Int :=
  let written := codec.populatePacketHeader
  -- Pack the Node Type in first byte
  let written := written ++ [type % 256]
  -- No root or end node details to pack!
  let written := written ++ encodeLE sizeofInt 0
  (written, wrapInt32 written.length)

/-- Lines 310-320, the loop of `packIntoMessage` over the end nodes: for each one its
byte length as a `size_t`, then that many bytes of it. -/
def packEndNodes (sizeofSizeT : Nat) : List (Option OctalCode) → Option (List Nat)
  | [] => some []
  | endNodeCode :: rest => do
    let bytes := match endNodeCode with
      | some code => bytesRequiredForCodeLength (numberOfThreeBitSectionsInCode code)
      | none => 0
    let payload ← match endNodeCode with
      | some code => readBytes code 0 bytes
      | none => some []
    let more ← packEndNodes sizeofSizeT rest
    some (encodeLE sizeofSizeT bytes ++ payload ++ more)

/-- Lines 286-328, `packIntoMessage`: the bytes written from `bufferStart` on and the
returned count `destinationBuffer - bufferStart`; `none` when a key is shorter than the
byte length its section count implies (the `memcpy` would read past it). The source
never reads its `availableBytes` argument, which is left out. -/
def packIntoMessage (codec : PacketHeaderCodec) (sizeofSizeT : Nat) (m : JurisdictionMap) :
    Option (List Nat × Int) := do
  let written := codec.populatePacketHeader
  -- Pack the Node Type in first byte
  let written := written ++ [m.nodeType % 256]
  match m.rootOctalCode with
  | some rootOctalCode =>
    let bytes := bytesRequiredForCodeLength (numberOfThreeBitSectionsInCode rootOctalCode)
    let written := written ++ encodeLE sizeofSizeT bytes
    let rootBytes ← readBytes rootOctalCode 0 bytes
    let written := written ++ rootBytes
    -- if and only if there's a root jurisdiction, also include the end nodes
    let endNodeCount := toSigned sizeofInt (m.endNodes.length % 256 ^ sizeofInt)
    let written := written ++ encodeLE sizeofInt m.endNodes.length
    let packed ← packEndNodes sizeofSizeT (m.endNodes.take endNodeCount.toNat)
    let written := written ++ packed
    some (written, wrapInt32 written.length)
  | none =>
    let written := written ++ encodeLE sizeofInt 0
    some (written, wrapInt32 written.length)

/-- Lines 355-372, the loop of `unpackFromMessage` over `endNodeCount` entries, from
read offset `pos` with `remainingBytes` left: the final offset, budget and end nodes.
An entry longer than the budget is skipped without moving past its payload and the
loop goes on; an entry of negative length within the budget asks `new` for a
negative size. -/
def unpackEndNodes (mem : List Nat) :
    Nat → Nat → Int → List (Option OctalCode) → Option (Nat × Int × List (Option OctalCode))
  | 0, pos, remainingBytes, endNodes => some (pos, remainingBytes, endNodes)
  | count + 1, pos, remainingBytes, endNodes => do
    let bytes ← readInt mem pos
    let pos := pos + sizeofInt
    let remainingBytes := wrapInt32 (remainingBytes - sizeofInt)
    if bytes ≤ remainingBytes then
      if bytes < 0 then none
      else
        let endNodeCode ← readBytes mem pos bytes.toNat
        let pos := pos + bytes.toNat
        let remainingBytes := remainingBytes - bytes
        -- if the endNodeCode was 0 length then don't add it
        let endNodes := if 0 < bytes then endNodes ++ [some endNodeCode] else endNodes
        unpackEndNodes mem count pos remainingBytes endNodes
    else unpackEndNodes mem count pos remainingBytes endNodes

/-- Lines 330-376, `unpackFromMessage(sourceBuffer, availableBytes)`: `mem` is the
memory `sourceBuffer` points to; the result is the map afterwards and the returned
count `sourceBuffer - startPosition`. -/
def unpackFromMessage (codec : PacketHeaderCodec) (m : JurisdictionMap) (mem : List Nat)
    (availableBytes : Int) : Option (JurisdictionMap × Int) := do
  let m := clear m
  -- increment to push past the packet header
  let numBytesPacketHeader := codec.numBytesForPacketHeader mem
  let pos := numBytesPacketHeader
  let remainingBytes := wrapInt32 (availableBytes - numBytesPacketHeader)
  -- read the root jurisdiction
  let bytes ← readInt mem pos
  let pos := pos + sizeofInt
  let remainingBytes := wrapInt32 (remainingBytes - sizeofInt)
  if 0 < bytes ∧ bytes ≤ remainingBytes then
    let rootOctalCode ← readBytes mem pos bytes.toNat
    let pos := pos + bytes.toNat
    let remainingBytes := remainingBytes - bytes
    -- if and only if there's a root jurisdiction, also include the end nodes
    let endNodeCount ← readInt mem pos
    let pos := pos + sizeofInt
    let (pos, _, endNodes) ← unpackEndNodes mem endNodeCount.toNat pos remainingBytes []
    some ({ m with rootOctalCode := some rootOctalCode, endNodes := endNodes }, wrapInt32 pos)
  else
    some (m, wrapInt32 pos)

/-- The layout of a packed map in the words of the spec: "[packet header][1 byte
node-type tag][root length (native-width length field)][root bytes][end-node count
(native-width int)][repeated: end length, end bytes]". -/
def wireLayout (codec : PacketHeaderCodec) (sizeofSizeT : Nat) (nodeType : Nat)
    (root : OctalCode) (endNodes : List OctalCode) : List Nat :=
  codec.populatePacketHeader ++ [nodeType % 256]
    ++ encodeLE sizeofSizeT root.length ++ root
    ++ encodeLE sizeofInt endNodes.length
    ++ endNodes.flatMap (fun e => encodeLE sizeofSizeT e.length ++ e)

/-- An end node that lies strictly below the root: the root is an ancestor of it and
it is not an ancestor of the root. -/
def IsStrictDescendantOf (endNode : Option OctalCode) (root : OctalCode) : Prop :=
  isAncestorOf (some root) endNode none = true ∧ isAncestorOf endNode (some root) none = false

instance (endNode : Option OctalCode) (root : OctalCode) :
    Decidable (IsStrictDescendantOf endNode root) := by
  unfold IsStrictDescendantOf; infer_instance

/-- The layout `unpackFromMessage` reads: the packet header, the root length as an
`int`, the root bytes, the end-node count as an `int`, then for each end node its
length as an `int` followed by its bytes. -/
def unpackLayout (codec : PacketHeaderCodec) (root : OctalCode) (endNodes : List OctalCode) :
    List Nat :=
  codec.populatePacketHeader
    ++ encodeLE sizeofInt root.length ++ root
    ++ encodeLE sizeofInt endNodes.length
    ++ endNodes.flatMap (fun e => encodeLE sizeofInt e.length ++ e)

/-! ## Ownership of the key buffers

The same operations with the key buffers held in an explicit heap, for the claims about
ownership and aliasing: a map object holds addresses, `new` takes a fresh address,
`delete[]` of an address that is not allocated is undefined behaviour (`none`). -/

/-- The heap: cell `p` holds the bytes of the buffer at address `p`, or `none` once the
buffer is released. -/
abbrev Heap := List (Option (List Nat))

/-- The buffer at address `p`, if allocated. -/
def Heap.deref (h : Heap) (p : Nat) : Option (List Nat) :=
  h[p]?.join

/-- A fresh buffer holding `bytes` (`new unsigned char[n]` followed by the copy into
it): the heap afterwards and the address. -/
def Heap.alloc (h : Heap) (bytes : List Nat) : Heap × Nat :=
  (h ++ [some bytes], h.length)

/-- Release of the buffer at `p` (`delete[]`). -/
def Heap.free (h : Heap) (p : Nat) : Option Heap :=
  match h.deref p with
  | some _ => some (h.set p none)
  | none => none

/-- A `JurisdictionMap` object with its keys as addresses: `_nodeType`,
`_rootOctalCode`, `_endNodes`; `none` is `NULL`. -/
structure MapObject where
  nodeType : Nat
  rootOctalCode : Option Nat
  endNodes : List (Option Nat)
  deriving DecidableEq, Repr

/-- The addresses a map object holds. -/
def MapObject.pointers (o : MapObject) : List Nat :=
  (o.rootOctalCode :: o.endNodes).filterMap id

/-- Lines 85-94 of `clear`: the non-null pointers are released, the root first, then
the end nodes in order. -/
def freePointers (h : Heap) : List (Option Nat) → Option Heap
  | [] => some h
  | none :: rest => freePointers h rest
  | some p :: rest => (h.free p).bind (fun h => freePointers h rest)

/-- Lines 84-96, `clear`, on the heap. -/
def clearObject (h : Heap) (o : MapObject) : Option (Heap × MapObject) :=
  (freePointers h (o.rootOctalCode :: o.endNodes)).map
    (fun h => (h, { o with rootOctalCode := none, endNodes := [] }))

/-- Lines 181-185, `init`, on the heap. -/
def initObject (h : Heap) (o : MapObject) (rootOctalCode : Option Nat)
    (endNodes : List (Option Nat)) : Option (Heap × MapObject) :=
  (clearObject h o).map
    (fun r => (r.1, { r.2 with rootOctalCode := rootOctalCode, endNodes := endNodes }))

/-- Lines 56-58 and 66-68: a fresh buffer with the first bytes of the key at `p`, as
many as its section count implies. -/
def duplicateKey (h : Heap) (p : Nat) : Option (Heap × Nat) :=
  (h.deref p).bind (fun code =>
    (readBytes code 0 (bytesRequiredForCodeLength (numberOfThreeBitSectionsInCode code))).map
      (fun bytes => h.alloc bytes))

/-- Lines 64-71, the loop of `copyContents`, on the heap. -/
def copyEndNodePointers (h : Heap) : List (Option Nat) → Option (Heap × List (Option Nat))
  | [] => some (h, [])
  | none :: rest => copyEndNodePointers h rest
  | some p :: rest =>
    (duplicateKey h p).bind (fun r =>
      (copyEndNodePointers r.1 rest).map (fun rs => (rs.1, some r.2 :: rs.2)))

/-- Lines 52-78, `copyContents(other)` on the heap: `o` is the object copied into,
`other` the object copied from. -/
def copyContentsObject (h : Heap) (o other : MapObject) : Option (Heap × MapObject) :=
  let o := { o with nodeType := other.nodeType }
  (match other.rootOctalCode with
    | some p => duplicateKey h p
    | none => some (h.alloc [0])).bind (fun r =>
      (copyEndNodePointers r.1 other.endNodes).bind (fun rs =>
        initObject rs.1 o (some r.2) rs.2))

/-! ## Construction from hex strings and from a settings file

A `const char*` or `QString` is a `List Char`. The hex decoder belongs to OctalCode.h,
which is not part of the sources at hand: the constructors take it as a parameter, and
`hexStringToOctalCode` below is the decoder the spec describes. -/

/-- The value of a hexadecimal digit, `none` for any other character. -/
def hexDigitValue (c : Char) : Option Nat :=
  if '0' ≤ c ∧ c ≤ '9' then some (c.toNat - '0'.toNat)
  else if 'a' ≤ c ∧ c ≤ 'f' then some (c.toNat - 'a'.toNat + 10)
  else if 'A' ≤ c ∧ c ≤ 'F' then some (c.toNat - 'A'.toNat + 10)
  else none

/-- Modelled from the spec: `hexStringToOctalCode` of OctalCode.h is missing; "Hex
strings encode the raw octal-address bytes (including its embedded section-count byte)
as hexadecimal pairs", and malformed hex, of odd length or with a character that is not
a hex digit, yields "MalformedInput / empty key": no key (`none`). -/
def hexStringToOctalCode : List Char → Option OctalCode
  | [] => some []
  | [_] => none
  | hi :: lo :: rest =>
    (hexDigitValue hi).bind (fun h =>
      (hexDigitValue lo).bind (fun l =>
        (hexStringToOctalCode rest).map (fun bytes => (16 * h + l) :: bytes)))

/-- Lines 163-177, the loop over the items of the end-node list: each item is decoded
and pushed at the back, a null result included. -/
def pushHexEndNodes (decode : List Char → Option OctalCode) :
    List (List Char) → List (Option OctalCode) → List (Option OctalCode)
  | [], endNodes => endNodes
  | endNodeHexString :: rest, endNodes =>
    pushHexEndNodes decode rest (endNodes ++ [decode endNodeHexString])

/-- Lines 149-178, `JurisdictionMap(const char* rootHexCode, const char* endNodesHexCodes)`.
The constructor does not set `_nodeType`: `nodeType` is what the member happens to hold.
`QString::split(",")` keeps empty items, as `List.splitOn` does. -/
def ofHexCodes (decode : List Char → Option OctalCode) (nodeType : Nat)
    (rootHexCode endNodesHexCodes : List Char) : JurisdictionMap :=
  let rootOctalCode := decode rootHexCode
  let endNodeList := endNodesHexCodes.splitOn ','
  { nodeType := nodeType, rootOctalCode := rootOctalCode,
    endNodes := pushHexEndNodes decode endNodeList [] }

/-- What `readFromFile` reads of a `QSettings` store (Qt, an external library): the value
of the key `root`, if the store has one, and the keys of the group `endNodes` with their
values, in the order `childKeys()` lists them. -/
structure SettingsStore where
  root : Option (List Char)
  endNodes : List (List Char × List Char)

/-- Lines 211-235, `readFromFile`: the root is replaced by the decoded value of `root`,
"00" when the key is absent, and the decoded value of each key of the group `endNodes`
is pushed at the back of the end nodes the map holds. -/
def readFromFile (decode : List Char → Option OctalCode) (settings : SettingsStore)
    (m : JurisdictionMap) : JurisdictionMap × Bool :=
  let rootCode := settings.root.getD ['0', '0']
  let m := { m with rootOctalCode := decode rootCode }
  let m := { m with
    endNodes := pushHexEndNodes decode (settings.endNodes.map (fun kv => kv.2)) m.endNodes }
  (m, true)

/-- Lines 107-110, `JurisdictionMap(const char* filename)`: `clear`, then
`readFromFile`; `nodeType` is what the member happens to hold. -/
def ofFile (decode : List Char → Option OctalCode) (nodeType : Nat)
    (settings : SettingsStore) : JurisdictionMap :=
  (readFromFile decode settings (clear ⟨nodeType, none, []⟩)).1

/-! ## The ancestor test -/

theorem isAncestorOf_some_iff (a d : OctalCode) (c : Option Nat) :
    isAncestorOf (some a) (some d) c = true ↔ sectionsOf a <+: sectionsOf d ++ c.toList := by
  simp [isAncestorOf]

theorem isAncestorOf_none_left (d : Option OctalCode) (c : Option Nat) :
    isAncestorOf none d c = false := by
  simp [isAncestorOf]

theorem isAncestorOf_none_right (a : Option OctalCode) (c : Option Nat) :
    isAncestorOf a none c = false := by
  cases a <;> simp [isAncestorOf]

theorem isAncestorOf_refl (k : OctalCode) : isAncestorOf (some k) (some k) none = true := by
  simp [isAncestorOf]

theorem isAncestorOf_trans (a b d : OctalCode)
    (hab : isAncestorOf (some a) (some b) none = true)
    (hbd : isAncestorOf (some b) (some d) none = true) :
    isAncestorOf (some a) (some d) none = true := by
  rw [isAncestorOf_some_iff] at *
  simp only [Option.toList_none, List.append_nil] at *
  exact hab.trans hbd

theorem isAncestorOf_hint_of_isAncestorOf (a d : OctalCode) (c : Option Nat)
    (h : isAncestorOf (some a) (some d) none = true) :
    isAncestorOf (some a) (some d) c = true := by
  rw [isAncestorOf_some_iff] at *
  simp only [Option.toList_none, List.append_nil] at h
  exact h.trans (List.prefix_append _ _)

theorem isUnderEndNode_iff (endNodes : List (Option OctalCode)) (node : Option OctalCode) :
    isUnderEndNode endNodes node = true ↔ ∃ e ∈ endNodes, isAncestorOf e node none = true := by
  induction endNodes with
  | nil => simp [isUnderEndNode]
  | cons e rest ih =>
    by_cases he : isAncestorOf e node none = true
    · simp [isUnderEndNode, he]
    · simp [isUnderEndNode, he, ih]

theorem isMyJurisdiction_nodeType (t : Nat) (root : Option OctalCode)
    (endNodes : List (Option OctalCode)) (node : Option OctalCode) (c : Option Nat) :
    isMyJurisdiction ⟨t, root, endNodes⟩ node c = isMyJurisdiction ⟨0, root, endNodes⟩ node c :=
  rfl

/-! ## The containment query -/

/-- C2: with a present root, `isMyJurisdiction` returns ABOVE when the candidate is an
ancestor of the root (tested without the hint); otherwise it returns WITHIN exactly when
the root is an ancestor of the candidate (through the hinted child when a hint is given)
and no end node is an ancestor of the candidate; in every remaining case it returns
BELOW. -/
theorem isMyJurisdiction_classification (m : JurisdictionMap) (root : OctalCode)
    (hroot : m.rootOctalCode = some root) (node : OctalCode) (childIndex : Option Nat) :
    (isAncestorOf (some node) (some root) none = true →
        isMyJurisdiction m (some node) childIndex = Area.ABOVE)
    ∧ (isAncestorOf (some node) (some root) none = false →
        (isMyJurisdiction m (some node) childIndex = Area.WITHIN ↔
          (isAncestorOf (some root) (some node) childIndex = true
            ∧ ∀ e ∈ m.endNodes, isAncestorOf e (some node) none = false)))
    ∧ (isAncestorOf (some node) (some root) none = false →
        ¬ (isAncestorOf (some root) (some node) childIndex = true
            ∧ ∀ e ∈ m.endNodes, isAncestorOf e (some node) none = false) →
        isMyJurisdiction m (some node) childIndex = Area.BELOW) := by
  have hunder : isUnderEndNode m.endNodes (some node) = false ↔
      ∀ e ∈ m.endNodes, isAncestorOf e (some node) none = false := by
    rw [← Bool.not_eq_true, isUnderEndNode_iff]
    simp
  refine ⟨?_, ?_, ?_⟩
  · intro h
    simp [isMyJurisdiction, hroot, h]
  · intro h
    rw [← hunder]
    cases hin : isAncestorOf (some root) (some node) childIndex <;>
      cases hu : isUnderEndNode m.endNodes (some node) <;>
      simp [isMyJurisdiction, hroot, h, hin, hu]
  · intro h hn
    rw [← hunder] at hn
    cases hin : isAncestorOf (some root) (some node) childIndex <;>
      cases hu : isUnderEndNode m.endNodes (some node) <;>
      simp_all [isMyJurisdiction]

/-- C2 at a concrete map: root "child 2 of root", one end node below it, candidate a
sibling of the end node. -/
theorem isMyJurisdiction_classification_witness :
    (⟨86, some (childOfRoot 2), [some (octalCodeOfSections [2, 3])]⟩ :
        JurisdictionMap).rootOctalCode = some (childOfRoot 2)
    ∧ isAncestorOf (some (octalCodeOfSections [2, 5])) (some (childOfRoot 2)) none = false
    ∧ (isMyJurisdiction ⟨86, some (childOfRoot 2), [some (octalCodeOfSections [2, 3])]⟩
          (some (octalCodeOfSections [2, 5])) none = Area.WITHIN ↔
        (isAncestorOf (some (childOfRoot 2)) (some (octalCodeOfSections [2, 5])) none = true
          ∧ ∀ e ∈ [some (octalCodeOfSections [2, 3])],
              isAncestorOf e (some (octalCodeOfSections [2, 5])) none = false)) :=
  ⟨rfl, by decide,
    (isMyJurisdiction_classification
      ⟨86, some (childOfRoot 2), [some (octalCodeOfSections [2, 3])]⟩ (childOfRoot 2) rfl
      (octalCodeOfSections [2, 5]) none).2.1 (by decide)⟩

/-- C3, as stated, fails: on the map with the degenerate root key and end nodes
[child 3 of root], the query of the degenerate root key does not return WITHIN. -/
theorem isMyJurisdiction_root_not_within :
    isMyJurisdiction ⟨86, some rootKey, [some (childOfRoot 3)]⟩ (some rootKey) none
      ≠ Area.WITHIN := by
  decide

/-- C3, amended: for every key K and every map whose root is K, whatever its end
nodes, `isMyJurisdiction(K)` with no child hint returns ABOVE, because the first test is
the reflexive ancestor test of the candidate against the root; so it does on the map
with the degenerate root key and end nodes [child 3 of root]. -/
theorem isMyJurisdiction_root_above (t : Nat) (K : OctalCode)
    (endNodes : List (Option OctalCode)) :
    isMyJurisdiction ⟨t, some K, endNodes⟩ (some K) none = Area.ABOVE
    ∧ isMyJurisdiction ⟨t, some rootKey, [some (childOfRoot 3)]⟩ (some rootKey) none
        = Area.ABOVE := by
  constructor <;> simp [isMyJurisdiction, isAncestorOf_refl]

/-- C4: when the end nodes of M are strict descendants of its root, E is an end node
of M and E is an ancestor of K, then the root of M is an ancestor of K and
`isMyJurisdiction(K)` returns BELOW, with or without a child hint. -/
theorem isMyJurisdiction_below_end_node (m : JurisdictionMap) (root E K : OctalCode)
    (hroot : m.rootOctalCode = some root)
    (hstrict : ∀ e ∈ m.endNodes, IsStrictDescendantOf e root)
    (hE : some E ∈ m.endNodes)
    (hK : isAncestorOf (some E) (some K) none = true) (childIndex : Option Nat) :
    isAncestorOf (some root) (some K) none = true
    ∧ isMyJurisdiction m (some K) childIndex = Area.BELOW := by
  obtain ⟨hRE, hER⟩ := hstrict (some E) hE
  have hRK : isAncestorOf (some root) (some K) none = true := isAncestorOf_trans _ _ _ hRE hK
  have hKR : isAncestorOf (some K) (some root) none = false := by
    cases h : isAncestorOf (some K) (some root) none
    · rfl
    · rw [isAncestorOf_trans _ _ _ hK h] at hER
      exact absurd hER (by decide)
  have hu : isUnderEndNode m.endNodes (some K) = true :=
    (isUnderEndNode_iff _ _).2 ⟨some E, hE, hK⟩
  refine ⟨hRK, ?_⟩
  simp [isMyJurisdiction, hroot, hKR, hu]

/-- C4 at a concrete map: root "child 2 of root", end node [2, 3], candidate
[2, 3, 7]. -/
theorem isMyJurisdiction_below_end_node_witness :
    (∀ e ∈ [some (octalCodeOfSections [2, 3])], IsStrictDescendantOf e (childOfRoot 2))
    ∧ isAncestorOf (some (octalCodeOfSections [2, 3])) (some (octalCodeOfSections [2, 3, 7])) none
        = true
    ∧ isAncestorOf (some (childOfRoot 2)) (some (octalCodeOfSections [2, 3, 7])) none = true
    ∧ isMyJurisdiction ⟨86, some (childOfRoot 2), [some (octalCodeOfSections [2, 3])]⟩
        (some (octalCodeOfSections [2, 3, 7])) none = Area.BELOW :=
  ⟨by decide, by decide,
    isMyJurisdiction_below_end_node
      ⟨86, some (childOfRoot 2), [some (octalCodeOfSections [2, 3])]⟩
      (childOfRoot 2) (octalCodeOfSections [2, 3]) (octalCodeOfSections [2, 3, 7])
      rfl (by decide) (by decide) (by decide) none⟩

/-- C5: a key K that has fewer sections than the root of M and is an ancestor of it
is classified ABOVE, whatever end nodes M holds and whatever the child hint. -/
theorem isMyJurisdiction_above (m : JurisdictionMap) (root K : OctalCode)
    (hroot : m.rootOctalCode = some root)
    (_hshallow : numberOfThreeBitSectionsInCode K < numberOfThreeBitSectionsInCode root)
    (hanc : isAncestorOf (some K) (some root) none = true) (childIndex : Option Nat) :
    isMyJurisdiction m (some K) childIndex = Area.ABOVE := by
  simp [isMyJurisdiction, hroot, hanc]

/-- C5 at a concrete map: root [2, 3], candidate "child 2 of root", whose own child 3
is the root. -/
theorem isMyJurisdiction_above_witness :
    numberOfThreeBitSectionsInCode (childOfRoot 2)
        < numberOfThreeBitSectionsInCode (octalCodeOfSections [2, 3])
    ∧ isAncestorOf (some (childOfRoot 2)) (some (octalCodeOfSections [2, 3])) none = true
    ∧ isMyJurisdiction ⟨86, some (octalCodeOfSections [2, 3]), [some (octalCodeOfSections [2, 3, 1])]⟩
        (some (childOfRoot 2)) (some 3) = Area.ABOVE :=
  ⟨by decide, by decide,
    isMyJurisdiction_above
      ⟨86, some (octalCodeOfSections [2, 3]), [some (octalCodeOfSections [2, 3, 1])]⟩
      (octalCodeOfSections [2, 3]) (childOfRoot 2) rfl (by decide) (by decide) (some 3)⟩

/-- C6: on the map whose root is the degenerate root key and whose only end node is
"child i of root", the query of "child j of root" with no child hint returns BELOW when
j = i and WITHIN when j ≠ i, for i and j in 0..7. -/
theorem isMyJurisdiction_children_of_root (t i j : Nat) (hi : i < 8) (hj : j < 8) :
    isMyJurisdiction ⟨t, some rootKey, [some (childOfRoot i)]⟩ (some (childOfRoot j)) none
      = if j = i then Area.BELOW else Area.WITHIN := by
  rw [isMyJurisdiction_nodeType]
  interval_cases i <;> interval_cases j <;> decide

/-- C6 at the case of the spec: end node child 3, queries child 3 and child 5. -/
theorem isMyJurisdiction_children_of_root_witness :
    isMyJurisdiction ⟨86, some rootKey, [some (childOfRoot 3)]⟩ (some (childOfRoot 3)) none
      = Area.BELOW
    ∧ isMyJurisdiction ⟨86, some rootKey, [some (childOfRoot 3)]⟩ (some (childOfRoot 5)) none
      = Area.WITHIN :=
  ⟨isMyJurisdiction_children_of_root 86 3 3 (by decide) (by decide),
    isMyJurisdiction_children_of_root 86 3 5 (by decide) (by decide)⟩

/-- C7: for every map and every entry E of its end-node list, `isMyJurisdiction(E)` is
not WITHIN, with or without a child hint. -/
theorem isMyJurisdiction_end_node_not_within (m : JurisdictionMap) (E : Option OctalCode)
    (hE : E ∈ m.endNodes) (childIndex : Option Nat) :
    isMyJurisdiction m E childIndex ≠ Area.WITHIN := by
  cases E with
  | none => simp [isMyJurisdiction, isAncestorOf_none_left, isAncestorOf_none_right]
  | some e =>
    have hu : isUnderEndNode m.endNodes (some e) = true :=
      (isUnderEndNode_iff _ _).2 ⟨some e, hE, isAncestorOf_refl e⟩
    cases habove : isAncestorOf (some e) m.rootOctalCode none <;>
      simp [isMyJurisdiction, habove, hu]

/-- C7 at a concrete map: the second of two end nodes. -/
theorem isMyJurisdiction_end_node_not_within_witness :
    some (octalCodeOfSections [2, 5]) ∈
        [some (octalCodeOfSections [2, 3]), some (octalCodeOfSections [2, 5])]
    ∧ isMyJurisdiction
        ⟨86, some (childOfRoot 2), [some (octalCodeOfSections [2, 3]), some (octalCodeOfSections [2, 5])]⟩
        (some (octalCodeOfSections [2, 5])) none ≠ Area.WITHIN :=
  ⟨by decide,
    isMyJurisdiction_end_node_not_within
      ⟨86, some (childOfRoot 2), [some (octalCodeOfSections [2, 3]), some (octalCodeOfSections [2, 5])]⟩
      (some (octalCodeOfSections [2, 5])) (by decide) none⟩

/-! ## Memory and native integers -/

theorem encodeLE_length (width v : Nat) : (encodeLE width v).length = width := by
  induction width generalizing v with
  | zero => rfl
  | succ w ih => simp [encodeLE, ih]

theorem decodeLE_encodeLE (width v : Nat) :
    decodeLE (encodeLE width v) = v % 256 ^ width := by
  induction width generalizing v with
  | zero => simp [encodeLE, decodeLE, Nat.mod_one]
  | succ w ih =>
    simp only [encodeLE, decodeLE, ih]
    rw [pow_succ', Nat.mod_mul]

theorem wrapInt32_of_range (x : Int) (hlo : -2147483648 ≤ x) (hhi : x < 2147483648) :
    wrapInt32 x = x := by
  unfold wrapInt32
  omega

theorem readBytes_all (code : List Nat) : readBytes code 0 code.length = some code := by
  simp [readBytes]

theorem readBytes_append_left (pre rest : List Nat) (n : Nat) :
    readBytes (pre ++ rest) pre.length n = readBytes rest 0 n := by
  simp [readBytes]

theorem toSigned_of_small (v : Nat) (h : v < 2147483648) : toSigned sizeofInt v = (v : Int) := by
  simp [toSigned, sizeofInt, h]

/-! ## The wire encoding -/

theorem packEndNodes_valid (sizeofSizeT : Nat) (endNodes : List OctalCode)
    (hE : ∀ e ∈ endNodes, ValidOctalCode e) :
    packEndNodes sizeofSizeT (endNodes.map some)
      = some (endNodes.flatMap (fun e => encodeLE sizeofSizeT e.length ++ e)) := by
  induction endNodes with
  | nil => rfl
  | cons e rest ih =>
    have he : bytesRequiredForCodeLength (numberOfThreeBitSectionsInCode e) = e.length :=
      ((hE e (List.mem_cons_self e rest)).1).symm
    have ih2 := ih (fun x hx => hE x (List.mem_cons_of_mem e hx))
    simp [packEndNodes, he, readBytes_all, ih2]

theorem length_le_flatMap_length (sizeofSizeT : Nat) (endNodes : List OctalCode)
    (hE : ∀ e ∈ endNodes, ValidOctalCode e) :
    endNodes.length
      ≤ (endNodes.flatMap (fun e => encodeLE sizeofSizeT e.length ++ e)).length := by
  induction endNodes with
  | nil => simp
  | cons e rest ih =>
    have he : 1 ≤ e.length := by
      have := (hE e (List.mem_cons_self e rest)).1
      unfold bytesRequiredForCodeLength at this
      omega
    have ih2 := ih (fun x hx => hE x (List.mem_cons_of_mem e hx))
    simp only [List.flatMap_cons, List.length_cons, List.length_append]
    omega

/-- C9: for a map with a present root R and present end nodes E1..En, all valid keys,
`packIntoMessage` writes the packet header, one node-type byte, the byte length of R as
a `size_t`, the bytes of R, n as an `int`, and for each Ei in list order its byte length
as a `size_t` followed by its bytes; the returned count is the number of bytes written,
header included (the layout fitting an `int`). -/
theorem packIntoMessage_layout (codec : PacketHeaderCodec) (sizeofSizeT : Nat)
    (m : JurisdictionMap) (root : OctalCode) (endNodes : List OctalCode)
    (hroot : m.rootOctalCode = some root) (hends : m.endNodes = endNodes.map some)
    (hR : ValidOctalCode root) (hE : ∀ e ∈ endNodes, ValidOctalCode e)
    (hfit : (wireLayout codec sizeofSizeT m.nodeType root endNodes).length < 2147483648) :
    packIntoMessage codec sizeofSizeT m
      = some (wireLayout codec sizeofSizeT m.nodeType root endNodes,
          ((wireLayout codec sizeofSizeT m.nodeType root endNodes).length : Int)) := by
  have hlen := length_le_flatMap_length sizeofSizeT endNodes hE
  have hn : endNodes.length < 2147483648 := by
    simp only [wireLayout, List.length_append] at hfit
    omega
  have hcount : toSigned sizeofInt (endNodes.length % 256 ^ sizeofInt) = (endNodes.length : Int) := by
    have : endNodes.length % 256 ^ sizeofInt = endNodes.length :=
      Nat.mod_eq_of_lt (by simp only [sizeofInt]; omega)
    rw [this, toSigned_of_small _ hn]
  have hRlen : bytesRequiredForCodeLength (numberOfThreeBitSectionsInCode root) = root.length :=
    hR.1.symm
  have hwrap := wrapInt32_of_range
    ((wireLayout codec sizeofSizeT m.nodeType root endNodes).length : Int) (by omega) (by omega)
  have htake : (endNodes.map some).take endNodes.length = endNodes.map some :=
    List.take_of_length_le (by simp)
  simp only [wireLayout] at hwrap ⊢
  simp only [packIntoMessage, hroot, hends, hRlen, readBytes_all, hcount, Int.toNat_ofNat,
    List.length_map, htake, packEndNodes_valid sizeofSizeT endNodes hE,
    Option.bind_eq_bind, Option.some_bind, Option.pure_def, hwrap]

/-- C9 at a concrete map on ILP32 with a two-byte header: root "child 2 of root", one
end node [2, 3]. -/
theorem packIntoMessage_layout_witness :
    packIntoMessage (fixedHeaderCodec [74, 1]) ilp32
        ⟨86, some (childOfRoot 2), [some (octalCodeOfSections [2, 3])]⟩
      = some ([74, 1] ++ [86] ++ [2, 0, 0, 0] ++ [1, 64] ++ [1, 0, 0, 0]
          ++ ([2, 0, 0, 0] ++ [2, 76]), 19) :=
  (packIntoMessage_layout (fixedHeaderCodec [74, 1]) ilp32
    ⟨86, some (childOfRoot 2), [some (octalCodeOfSections [2, 3])]⟩
    (childOfRoot 2) [octalCodeOfSections [2, 3]] rfl rfl (by decide) (by decide)
    (by decide)).trans (by decide)

/-- C10, as stated, fails: for the map with the degenerate root key and end nodes
[child 3 of root] (ILP32, two-byte header) the root-length field written after the
node-type byte is 1, not 0, and it is followed by the root byte, the end-node count 1
and the end-node entry. -/
theorem packIntoMessage_degenerate_root_not_empty :
    (packIntoMessage (fixedHeaderCodec [74, 1]) ilp32
        ⟨86, some rootKey, [some (childOfRoot 3)]⟩).map Prod.fst
      = some ([74, 1] ++ [86] ++ [1, 0, 0, 0] ++ [0] ++ [1, 0, 0, 0]
          ++ ([2, 0, 0, 0] ++ [1, 96]))
    ∧ (packIntoMessage (fixedHeaderCodec [74, 1]) ilp32
        ⟨86, some rootKey, [some (childOfRoot 3)]⟩).map Prod.fst
      ≠ some ([74, 1] ++ [86] ++ [0, 0, 0, 0]) := by
  decide

/-- C10, amended: for every map whose root is absent (a null pointer), and for any
end-node list it holds, `packIntoMessage` writes after the node-type byte a zero
root-length field of the width of an `int`, and writes no end-node count and no end-node
entries. -/
theorem packIntoMessage_absent_root (codec : PacketHeaderCodec) (sizeofSizeT : Nat)
    (t : Nat) (endNodes : List (Option OctalCode)) :
    (packIntoMessage codec sizeofSizeT ⟨t, none, endNodes⟩).map Prod.fst
      = some (codec.populatePacketHeader ++ [t % 256] ++ [0, 0, 0, 0]) := by
  simp [packIntoMessage, encodeLE, sizeofInt]

theorem readInt_after_header (pre : List Nat) (b0 b1 b2 b3 : Nat) (rest : List Nat) :
    readInt (pre ++ b0 :: b1 :: b2 :: b3 :: rest) pre.length
      = some (toSigned sizeofInt (decodeLE [b0, b1, b2, b3])) := by
  simp [readInt, readBytes, sizeofInt]

/-- C8, as stated, fails: unpacking the empty-jurisdiction message for node type 86
(two-byte header) into a map of that type gives a map with an absent root, not the
default map for the type, whose root is the one-byte degenerate root key; and unpacked
into the default map for type 0 it leaves node type 0. -/
theorem unpack_packEmpty_not_default :
    (unpackFromMessage (fixedHeaderCodec [74, 1]) (ofNodeType 86)
        (packEmptyJurisdictionIntoMessage (fixedHeaderCodec [74, 1]) 86).1
        (packEmptyJurisdictionIntoMessage (fixedHeaderCodec [74, 1]) 86).2).map Prod.fst
      = some ⟨86, none, []⟩
    ∧ (⟨86, none, []⟩ : JurisdictionMap) ≠ ofNodeType 86
    ∧ (unpackFromMessage (fixedHeaderCodec [74, 1]) (ofNodeType 0)
        (packEmptyJurisdictionIntoMessage (fixedHeaderCodec [74, 1]) 86).1
        (packEmptyJurisdictionIntoMessage (fixedHeaderCodec [74, 1]) 86).2).map Prod.fst
      = some ⟨0, none, []⟩ := by
  decide

/-- C8, amended: for every node type other than 1, `packEmptyJurisdictionIntoMessage`
followed by `unpackFromMessage` on the produced buffer yields a map with an absent
(null) root and no end nodes. -/
theorem unpack_packEmpty (codec : PacketHeaderCodec) (hc : codec.Consistent) (type : Nat)
    (htype : type % 256 ≠ 1) (m : JurisdictionMap) :
    ∃ m' n, unpackFromMessage codec m
        (packEmptyJurisdictionIntoMessage codec type).1
        (packEmptyJurisdictionIntoMessage codec type).2 = some (m', n)
      ∧ m'.rootOctalCode = none ∧ m'.endNodes = [] := by
  have hhdr := hc ([type % 256] ++ encodeLE sizeofInt 0)
  have hread := readInt_after_header codec.populatePacketHeader (type % 256) 0 0 0 [0]
  have hlt : type % 256 < 256 := Nat.mod_lt _ (by decide)
  have hval : toSigned sizeofInt (decodeLE [type % 256, 0, 0, 0]) = ((type % 256 : Nat) : Int) := by
    rw [← toSigned_of_small (type % 256) (by omega)]
    simp [decodeLE]
  simp only [packEmptyJurisdictionIntoMessage, encodeLE, sizeofInt, List.append_assoc,
    List.singleton_append, Nat.zero_mod, Nat.zero_div] at hhdr hread hval ⊢
  simp only [unpackFromMessage, hhdr, hread, hval, Option.bind_eq_bind, Option.some_bind,
    sizeofInt, List.length_append, List.length_cons, List.length_nil]
  have hcond : ¬ (0 < ((type % 256 : Nat) : Int) ∧ ((type % 256 : Nat) : Int) ≤
      wrapInt32 (wrapInt32 (wrapInt32 ((codec.populatePacketHeader.length + (0 + 1 + 1 + 1 + 1 + 1) : Nat) : Int)
        - (codec.populatePacketHeader.length : Int)) - ((4 : Nat) : Int))) := by
    unfold wrapInt32
    omega
  rw [if_neg hcond]
  exact ⟨_, _, rfl, rfl, rfl⟩

/-- C8 amended, at node type 86 with a two-byte header, unpacked into the default map
for type 0. -/
theorem unpack_packEmpty_witness :
    (fixedHeaderCodec [74, 1]).Consistent ∧ 86 % 256 ≠ 1
    ∧ ∃ m' n, unpackFromMessage (fixedHeaderCodec [74, 1]) (ofNodeType 0)
        (packEmptyJurisdictionIntoMessage (fixedHeaderCodec [74, 1]) 86).1
        (packEmptyJurisdictionIntoMessage (fixedHeaderCodec [74, 1]) 86).2 = some (m', n)
      ∧ m'.rootOctalCode = none ∧ m'.endNodes = [] :=
  ⟨fun _ => rfl, by decide,
    unpack_packEmpty (fixedHeaderCodec [74, 1]) (fun _ => rfl) 86 (by decide) (ofNodeType 0)⟩

theorem readBytes_length (mem : List Nat) (pos n : Nat) (r : List Nat)
    (h : readBytes mem pos n = some r) : r.length = n := by
  unfold readBytes at h
  split at h
  · cases h
    simp only [List.length_take, List.length_drop]
    omega
  · cases h

theorem validOctalCode_length_le (code : OctalCode) (h : ValidOctalCode code) :
    1 ≤ code.length ∧ code.length ≤ 97 := by
  obtain ⟨hlen, hbytes⟩ := h
  unfold bytesRequiredForCodeLength numberOfThreeBitSectionsInCode at hlen
  cases code with
  | nil => simp at hlen
  | cons c rest =>
    have hc : c < 256 := hbytes c (List.mem_cons_self c rest)
    simp only [List.headD_cons] at hlen
    omega

/-- C1 fails on the code: for every map with a present valid root, packed for LP64 or
ILP32 behind any consistent header, no run of `unpackFromMessage` on the packed buffer
gives back the root. The reader takes the node-type byte and the first three bytes of
the root-length field for the root length. -/
theorem unpack_pack_root_lost (codec : PacketHeaderCodec) (hc : codec.Consistent)
    (sizeofSizeT : Nat) (hsz : sizeofSizeT = lp64 ∨ sizeofSizeT = ilp32)
    (m : JurisdictionMap) (root : OctalCode) (hroot : m.rootOctalCode = some root)
    (hR : ValidOctalCode root) (buf : List Nat) (n : Int)
    (hpack : packIntoMessage codec sizeofSizeT m = some (buf, n))
    (m0 m' : JurisdictionMap) (k : Int)
    (hunpack : unpackFromMessage codec m0 buf n = some (m', k)) :
    m'.rootOctalCode ≠ some root := by
  obtain ⟨hL1, hL97⟩ := validOctalCode_length_le root hR
  have hRlen : bytesRequiredForCodeLength (numberOfThreeBitSectionsInCode root) = root.length :=
    hR.1.symm
  have hlt : m.nodeType % 256 < 256 := Nat.mod_lt _ (by decide)
  have hbuf : ∃ rest, buf = codec.populatePacketHeader
      ++ (m.nodeType % 256) :: root.length :: 0 :: 0 :: rest := by
    simp only [packIntoMessage, hroot, hRlen, readBytes_all, Option.bind_eq_bind,
      Option.some_bind, Option.pure_def, Option.bind_eq_some, Option.some.injEq,
      Prod.mk.injEq] at hpack
    obtain ⟨packed, -, hb, -⟩ := hpack
    have h0 : root.length % 256 = root.length := Nat.mod_eq_of_lt (by omega)
    have h1 : root.length / 256 = 0 := Nat.div_eq_of_lt (by omega)
    rcases hsz with rfl | rfl
    · exact ⟨0 :: 0 :: 0 :: 0 :: 0 :: (root ++ encodeLE sizeofInt m.endNodes.length ++ packed),
        by simp [← hb, lp64, encodeLE, h0, h1]⟩
    · exact ⟨0 :: (root ++ encodeLE sizeofInt m.endNodes.length ++ packed),
        by simp [← hb, ilp32, encodeLE, h0, h1]⟩
  obtain ⟨rest, rfl⟩ := hbuf
  have hhdr := hc ((m.nodeType % 256) :: root.length :: 0 :: 0 :: rest)
  have hread := readInt_after_header codec.populatePacketHeader (m.nodeType % 256)
    root.length 0 0 rest
  have hval : toSigned sizeofInt (decodeLE [m.nodeType % 256, root.length, 0, 0])
      = ((m.nodeType % 256 + 256 * root.length : Nat) : Int) := by
    rw [← toSigned_of_small (m.nodeType % 256 + 256 * root.length) (by omega)]
    simp [decodeLE]
  simp only [unpackFromMessage, hhdr, hread, hval, Option.bind_eq_bind, Option.some_bind]
    at hunpack
  split at hunpack
  · simp only [Option.bind_eq_some, Option.some.injEq, Prod.mk.injEq] at hunpack
    obtain ⟨r, hr, _, _, _, _, hm, _⟩ := hunpack
    have hrlen := readBytes_length _ _ _ _ hr
    simp only [Int.toNat_ofNat] at hrlen
    rw [← hm]
    simp only [ne_eq, Option.some.injEq]
    intro heq
    rw [heq] at hrlen
    omega
  · simp only [Option.some.injEq, Prod.mk.injEq] at hunpack
    rw [← hunpack.1]
    simp [clear]

/-- C1 at the default map for node type 86, LP64 and a two-byte header: the packed
buffer unpacks to a map whose root is absent, not the degenerate root key. -/
theorem unpack_pack_root_lost_witness :
    packIntoMessage (fixedHeaderCodec [74, 1]) lp64 (ofNodeType 86)
      = some ([74, 1] ++ [86] ++ [1, 0, 0, 0, 0, 0, 0, 0] ++ [0] ++ [0, 0, 0, 0], 16)
    ∧ unpackFromMessage (fixedHeaderCodec [74, 1]) (ofNodeType 86)
        ([74, 1] ++ [86] ++ [1, 0, 0, 0, 0, 0, 0, 0] ++ [0] ++ [0, 0, 0, 0]) 16
      = some (⟨86, none, []⟩, 6)
    ∧ (⟨86, none, []⟩ : JurisdictionMap).rootOctalCode ≠ some [0] :=
  ⟨by decide, by decide,
    unpack_pack_root_lost (fixedHeaderCodec [74, 1]) (fun _ => rfl) lp64 (Or.inl rfl)
      (ofNodeType 86) [0] rfl (by decide)
      ([74, 1] ++ [86] ++ [1, 0, 0, 0, 0, 0, 0, 0] ++ [0] ++ [0, 0, 0, 0]) 16 (by decide)
      (ofNodeType 86) ⟨86, none, []⟩ 6 (by decide)⟩

/-! ## Construction, replacement and copy -/

/-- C17: for every node type t, the map constructed from t has node type t, root equal
to the degenerate root key (one byte of value 0) and an empty end-node list. -/
theorem ofNodeType_eq (t : Nat) :
    (ofNodeType t).nodeType = t
    ∧ (ofNodeType t).rootOctalCode = some rootKey
    ∧ rootKey = [0]
    ∧ (ofNodeType t).endNodes = [] :=
  ⟨rfl, rfl, rfl, rfl⟩

/-- C19: for every map, `clear` leaves the root absent and the end-node list empty and
does not change the node type; clearing an already cleared map changes nothing, neither
in the map nor, on the heap, in any buffer. -/
theorem clear_eq (m : JurisdictionMap) (h : Heap) :
    (clear m).rootOctalCode = none
    ∧ (clear m).endNodes = []
    ∧ (clear m).nodeType = m.nodeType
    ∧ clear (clear m) = clear m
    ∧ clearObject h ⟨m.nodeType, none, []⟩ = some (h, ⟨m.nodeType, none, []⟩) :=
  ⟨rfl, rfl, rfl, rfl, rfl⟩

theorem copyEndNodes_valid (endNodes : List OctalCode)
    (hE : ∀ e ∈ endNodes,
      e.length = bytesRequiredForCodeLength (numberOfThreeBitSectionsInCode e)) :
    copyEndNodes (endNodes.map some) = some (endNodes.map some) := by
  induction endNodes with
  | nil => rfl
  | cons e rest ih =>
    have he := (hE e (List.mem_cons_self e rest)).symm
    have ih2 := ih (fun x hx => hE x (List.mem_cons_of_mem e hx))
    simp [copyEndNodes, he, readBytes_all, ih2]

/-- C15: for every map whose root and end nodes are present keys of the byte length
implied by their section count, copying it into any target (copy constructor or copy
assignment, whatever the target held before) yields a map equal to it: same node type,
byte-identical root, the same number of end nodes with byte-identical keys in the same
order. -/
theorem copyContents_valid (m other : JurisdictionMap) (root : OctalCode)
    (endNodes : List OctalCode)
    (hroot : other.rootOctalCode = some root) (hends : other.endNodes = endNodes.map some)
    (hR : root.length = bytesRequiredForCodeLength (numberOfThreeBitSectionsInCode root))
    (hE : ∀ e ∈ endNodes,
      e.length = bytesRequiredForCodeLength (numberOfThreeBitSectionsInCode e)) :
    ∃ c, copyContents m other = some c
      ∧ c.nodeType = other.nodeType
      ∧ c.rootOctalCode = some root
      ∧ c.endNodes.length = endNodes.length
      ∧ c.endNodes = endNodes.map some
      ∧ c = other := by
  refine ⟨other, ?_, rfl, hroot, by simp [hends], hends, rfl⟩
  cases other with
  | mk t r es =>
    simp only at hroot hends
    subst hroot hends
    simp [copyContents, copyContentsFrom, ← hR, readBytes_all, copyEndNodes_valid endNodes hE,
      init, clear]

/-- C15 at a concrete map, copied over a target that held other keys. -/
theorem copyContents_valid_witness :
    copyContents ⟨7, some (childOfRoot 1), [some (octalCodeOfSections [1, 1])]⟩
        ⟨86, some (childOfRoot 2), [some (octalCodeOfSections [2, 3]), some (octalCodeOfSections [2, 3])]⟩
      = some ⟨86, some [1, 64], [some [2, 76], some [2, 76]]⟩ := by
  obtain ⟨c, hc, -, -, -, -, rfl⟩ :=
    copyContents_valid ⟨7, some (childOfRoot 1), [some (octalCodeOfSections [1, 1])]⟩
      ⟨86, some (childOfRoot 2), [some (octalCodeOfSections [2, 3]), some (octalCodeOfSections [2, 3])]⟩
      (childOfRoot 2) [octalCodeOfSections [2, 3], octalCodeOfSections [2, 3]]
      rfl rfl (by decide) (by decide)
  rw [hc]
  decide

/-- C20: for every node type t (a byte), `packEmptyJurisdictionIntoMessage(t)` writes
exactly the packet header, then the one node-type byte t, then a zero root-length field
of the width of an `int`, and nothing else; it returns the header length plus 1 plus
the width of that field (the count fitting an `int`). -/
theorem packEmptyJurisdictionIntoMessage_eq (codec : PacketHeaderCodec) (t : Nat)
    (ht : t < 256) (hfit : codec.populatePacketHeader.length + 1 + sizeofInt < 2147483648) :
    (packEmptyJurisdictionIntoMessage codec t).1
        = codec.populatePacketHeader ++ [t] ++ [0, 0, 0, 0]
    ∧ [0, 0, 0, 0] = encodeLE sizeofInt 0
    ∧ (packEmptyJurisdictionIntoMessage codec t).2
        = ((codec.populatePacketHeader.length + 1 + sizeofInt : Nat) : Int) := by
  refine ⟨?_, by decide, ?_⟩
  · simp [packEmptyJurisdictionIntoMessage, Nat.mod_eq_of_lt ht, encodeLE, sizeofInt]
  · simp only [packEmptyJurisdictionIntoMessage, List.length_append, encodeLE_length,
      List.length_singleton]
    exact wrapInt32_of_range _ (by omega) (by omega)

/-- C20 at node type 86 with a two-byte header. -/
theorem packEmptyJurisdictionIntoMessage_eq_witness :
    packEmptyJurisdictionIntoMessage (fixedHeaderCodec [74, 1]) 86
      = ([74, 1] ++ [86] ++ [0, 0, 0, 0], 7) := by
  have h := packEmptyJurisdictionIntoMessage_eq (fixedHeaderCodec [74, 1]) 86 (by decide)
    (by decide)
  exact Prod.ext h.1 (h.2.2.trans (by decide))

/-! ## The end-node loop of `unpackFromMessage` -/

theorem unpackEndNodes_succ (mem : List Nat) (count pos : Nat) (remainingBytes : Int)
    (endNodes : List (Option OctalCode)) :
    unpackEndNodes mem (count + 1) pos remainingBytes endNodes
      = (readInt mem pos).bind (fun bytes =>
          if bytes ≤ wrapInt32 (remainingBytes - sizeofInt) then
            if bytes < 0 then none
            else (readBytes mem (pos + sizeofInt) bytes.toNat).bind (fun endNodeCode =>
              unpackEndNodes mem count (pos + sizeofInt + bytes.toNat)
                (wrapInt32 (remainingBytes - sizeofInt) - bytes)
                (if 0 < bytes then endNodes ++ [some endNodeCode] else endNodes))
          else unpackEndNodes mem count (pos + sizeofInt)
            (wrapInt32 (remainingBytes - sizeofInt)) endNodes) := by
  rw [unpackEndNodes]
  rfl

theorem readInt_some_le (mem : List Nat) (pos : Nat) (v : Int) (h : readInt mem pos = some v) :
    pos + sizeofInt ≤ mem.length := by
  unfold readInt readBytes at h
  by_contra hc
  simp [hc] at h

theorem unpackEndNodes_skip (mem : List Nat) (count pos : Nat) (remainingBytes bytes : Int)
    (endNodes : List (Option OctalCode)) (hread : readInt mem pos = some bytes)
    (hskip : bytes = 0 ∨ wrapInt32 (remainingBytes - sizeofInt) < bytes) :
    unpackEndNodes mem (count + 1) pos remainingBytes endNodes
      = unpackEndNodes mem count (pos + sizeofInt)
          (wrapInt32 (remainingBytes - sizeofInt)) endNodes := by
  rw [unpackEndNodes_succ, hread, Option.some_bind]
  by_cases hle : bytes ≤ wrapInt32 (remainingBytes - sizeofInt)
  · have h0 : bytes = 0 := by
      rcases hskip with h | h
      · exact h
      · omega
    subst h0
    have hfits : pos + sizeofInt ≤ mem.length := readInt_some_le mem pos 0 hread
    simp [hle, readBytes, hfits]
  · simp [hle]

theorem unpackEndNodes_invariant (P : Option OctalCode → Prop)
    (hP : ∀ k : OctalCode, k ≠ [] → P (some k)) (mem : List Nat) :
    ∀ (count pos : Nat) (remainingBytes : Int) (endNodes : List (Option OctalCode))
      (res : Nat × Int × List (Option OctalCode)),
      unpackEndNodes mem count pos remainingBytes endNodes = some res →
      (∀ e ∈ endNodes, P e) → ∀ e ∈ res.2.2, P e := by
  intro count
  induction count with
  | zero =>
    intro pos remainingBytes endNodes res h hacc
    simp only [unpackEndNodes, Option.some.injEq] at h
    subst h
    exact hacc
  | succ count ih =>
    intro pos remainingBytes endNodes res h hacc
    rw [unpackEndNodes_succ] at h
    cases hread : readInt mem pos with
    | none => simp [hread] at h
    | some bytes =>
      rw [hread, Option.some_bind] at h
      split at h
      · split at h
        · cases h
        · cases hpay : readBytes mem (pos + sizeofInt) bytes.toNat with
          | none => simp [hpay] at h
          | some endNodeCode =>
            rw [hpay, Option.some_bind] at h
            refine ih _ _ _ res h ?_
            split
            · intro e he
              rcases List.mem_append.1 he with he | he
              · exact hacc e he
              · rw [List.mem_singleton.1 he]
                apply hP
                have hlen := readBytes_length _ _ _ _ hpay
                intro hnil
                rw [hnil] at hlen
                simp only [List.length_nil] at hlen
                omega
            · exact hacc
      · exact ih _ _ _ res h hacc

theorem unpackEndNodes_extends (mem : List Nat) :
    ∀ (count pos : Nat) (remainingBytes : Int) (endNodes : List (Option OctalCode))
      (res : Nat × Int × List (Option OctalCode)),
      unpackEndNodes mem count pos remainingBytes endNodes = some res →
      endNodes <+: res.2.2 := by
  intro count
  induction count with
  | zero =>
    intro pos remainingBytes endNodes res h
    simp only [unpackEndNodes, Option.some.injEq] at h
    subst h
    exact List.prefix_refl _
  | succ count ih =>
    intro pos remainingBytes endNodes res h
    rw [unpackEndNodes_succ] at h
    cases hread : readInt mem pos with
    | none => simp [hread] at h
    | some bytes =>
      rw [hread, Option.some_bind] at h
      split at h
      · split at h
        · cases h
        · cases hpay : readBytes mem (pos + sizeofInt) bytes.toNat with
          | none => simp [hpay] at h
          | some endNodeCode =>
            rw [hpay, Option.some_bind] at h
            have hx := ih _ _ _ res h
            split at hx
            · exact (List.prefix_append _ _).trans hx
            · exact hx
      · exact ih _ _ _ res h

theorem unpackFromMessage_eq (codec : PacketHeaderCodec) (m : JurisdictionMap)
    (mem : List Nat) (availableBytes : Int) :
    unpackFromMessage codec m mem availableBytes
      = (readInt mem (codec.numBytesForPacketHeader mem)).bind (fun bytes =>
          if 0 < bytes ∧ bytes ≤ wrapInt32
              (wrapInt32 (availableBytes - codec.numBytesForPacketHeader mem) - sizeofInt) then
            (readBytes mem (codec.numBytesForPacketHeader mem + sizeofInt) bytes.toNat).bind
              (fun rootOctalCode =>
                (readInt mem (codec.numBytesForPacketHeader mem + sizeofInt + bytes.toNat)).bind
                  (fun endNodeCount =>
                    (unpackEndNodes mem endNodeCount.toNat
                      (codec.numBytesForPacketHeader mem + sizeofInt + bytes.toNat + sizeofInt)
                      (wrapInt32 (wrapInt32
                        (availableBytes - codec.numBytesForPacketHeader mem) - sizeofInt) - bytes)
                      []).bind
                      (fun res =>
                        some ({ clear m with
                                rootOctalCode := some rootOctalCode, endNodes := res.2.2 },
                              wrapInt32 res.1))))
          else some (clear m, wrapInt32 (codec.numBytesForPacketHeader mem + sizeofInt : Nat))) := by
  unfold unpackFromMessage
  rfl

/-- C13: in the end-node loop of `unpackFromMessage` an entry whose declared length is
zero consumes exactly its length field and appends nothing, and the loop goes on with
the entries after it; and after every run of `unpackFromMessage` every end node in the
list is a present, non-empty key. -/
theorem unpack_zero_length_entry (codec : PacketHeaderCodec) (m : JurisdictionMap)
    (mem : List Nat) (availableBytes : Int) :
    (∀ (count pos : Nat) (remainingBytes : Int) (endNodes : List (Option OctalCode)),
      readInt mem pos = some 0 →
      unpackEndNodes mem (count + 1) pos remainingBytes endNodes
        = unpackEndNodes mem count (pos + sizeofInt)
            (wrapInt32 (remainingBytes - sizeofInt)) endNodes)
    ∧ (∀ (m' : JurisdictionMap) (n : Int),
      unpackFromMessage codec m mem availableBytes = some (m', n) →
      ∀ e ∈ m'.endNodes, ∃ k : OctalCode, e = some k ∧ k ≠ []) := by
  constructor
  · intro count pos remainingBytes endNodes hread
    exact unpackEndNodes_skip mem count pos remainingBytes 0 endNodes hread (Or.inl rfl)
  · intro m' n h
    rw [unpackFromMessage_eq] at h
    cases hlen : readInt mem (codec.numBytesForPacketHeader mem) with
    | none => simp [hlen] at h
    | some bytes =>
      rw [hlen, Option.some_bind] at h
      split at h
      · simp only [Option.bind_eq_some, Option.some.injEq, Prod.mk.injEq] at h
        obtain ⟨rootOctalCode, _, endNodeCount, _, res, hres, hm, _⟩ := h
        rw [← hm]
        exact unpackEndNodes_invariant (fun e => ∃ k : OctalCode, e = some k ∧ k ≠ [])
          (fun k hk => ⟨k, rfl, hk⟩) mem _ _ _ _ res hres (by simp)
      · simp only [Option.some.injEq, Prod.mk.injEq] at h
        rw [← h.1]
        simp [clear]

/-- C13 on a buffer with two end-node entries, the first of declared length zero: the
second entry is parsed and is the only end node. -/
theorem unpack_zero_length_entry_witness :
    unpackFromMessage (fixedHeaderCodec [74, 1]) (ofNodeType 0)
        ([74, 1] ++ [1, 0, 0, 0] ++ [0] ++ [2, 0, 0, 0] ++ [0, 0, 0, 0] ++ [1, 0, 0, 0] ++ [7]) 20
      = some (⟨0, some [0], [some [7]]⟩, 20)
    ∧ unpackEndNodes
        ([74, 1] ++ [1, 0, 0, 0] ++ [0] ++ [2, 0, 0, 0] ++ [0, 0, 0, 0] ++ [1, 0, 0, 0] ++ [7])
        2 11 13 []
      = unpackEndNodes
        ([74, 1] ++ [1, 0, 0, 0] ++ [0] ++ [2, 0, 0, 0] ++ [0, 0, 0, 0] ++ [1, 0, 0, 0] ++ [7])
        1 15 9 []
    ∧ ∀ e ∈ [some [7]], ∃ k : OctalCode, e = some k ∧ k ≠ [] :=
  ⟨by decide,
    (unpack_zero_length_entry (fixedHeaderCodec [74, 1]) (ofNodeType 0)
      ([74, 1] ++ [1, 0, 0, 0] ++ [0] ++ [2, 0, 0, 0] ++ [0, 0, 0, 0] ++ [1, 0, 0, 0] ++ [7])
      20).1 1 11 13 [] (by decide),
    (unpack_zero_length_entry (fixedHeaderCodec [74, 1]) (ofNodeType 0)
      ([74, 1] ++ [1, 0, 0, 0] ++ [0] ++ [2, 0, 0, 0] ++ [0, 0, 0, 0] ++ [1, 0, 0, 0] ++ [7])
      20).2 ⟨0, some [0], [some [7]]⟩ 20 (by decide)⟩

/-- C11, as stated, fails: in this buffer the first of two end-node entries declares
100 bytes with 9 remaining; it is skipped, the loop goes on, and the entry read after
it is appended. -/
theorem unpack_over_long_entry_continues :
    readInt ([74, 1] ++ [1, 0, 0, 0] ++ [0] ++ [2, 0, 0, 0] ++ [100, 0, 0, 0] ++ [1, 0, 0, 0] ++ [7])
        11 = some 100
    ∧ unpackFromMessage (fixedHeaderCodec [74, 1]) (ofNodeType 0)
        ([74, 1] ++ [1, 0, 0, 0] ++ [0] ++ [2, 0, 0, 0] ++ [100, 0, 0, 0] ++ [1, 0, 0, 0] ++ [7]) 20
      = some (⟨0, some [0], [some [7]]⟩, 20) := by
  decide

/-- C11, amended: in the end-node loop of `unpackFromMessage` an entry whose declared
length exceeds the remaining bytes is not appended and consumes only its length field;
the loop then goes on with the entries that are left, reading the next length field
right after it, and the list it returns starts with the entries appended before. -/
theorem unpackEndNodes_over_long (mem : List Nat) (count pos : Nat)
    (remainingBytes bytes : Int) (endNodes : List (Option OctalCode))
    (hread : readInt mem pos = some bytes)
    (hlong : wrapInt32 (remainingBytes - sizeofInt) < bytes) :
    unpackEndNodes mem (count + 1) pos remainingBytes endNodes
      = unpackEndNodes mem count (pos + sizeofInt)
          (wrapInt32 (remainingBytes - sizeofInt)) endNodes
    ∧ ∀ res, unpackEndNodes mem (count + 1) pos remainingBytes endNodes = some res →
        endNodes <+: res.2.2 :=
  ⟨unpackEndNodes_skip mem count pos remainingBytes bytes endNodes hread (Or.inr hlong),
    fun res h => unpackEndNodes_extends mem _ _ _ _ res h⟩

/-- C11 amended, on the buffer above: after the over-long first entry one entry is
left to read, at offset 15 with 9 bytes remaining. -/
theorem unpackEndNodes_over_long_witness :
    unpackEndNodes
        ([74, 1] ++ [1, 0, 0, 0] ++ [0] ++ [2, 0, 0, 0] ++ [100, 0, 0, 0] ++ [1, 0, 0, 0] ++ [7])
        2 11 13 []
      = unpackEndNodes
        ([74, 1] ++ [1, 0, 0, 0] ++ [0] ++ [2, 0, 0, 0] ++ [100, 0, 0, 0] ++ [1, 0, 0, 0] ++ [7])
        1 15 9 []
    ∧ unpackEndNodes
        ([74, 1] ++ [1, 0, 0, 0] ++ [0] ++ [2, 0, 0, 0] ++ [100, 0, 0, 0] ++ [1, 0, 0, 0] ++ [7])
        1 15 9 []
      = some (20, 4, [some [7]]) :=
  ⟨(unpackEndNodes_over_long
      ([74, 1] ++ [1, 0, 0, 0] ++ [0] ++ [2, 0, 0, 0] ++ [100, 0, 0, 0] ++ [1, 0, 0, 0] ++ [7])
      1 11 13 100 [] (by decide) (by decide)).1,
    by decide⟩

/-! ## The root after construction, copy and unpack -/

/-- C14, as stated, fails: after `unpackFromMessage` on a buffer whose root length
field is zero, and on one whose root length field (100) exceeds the remaining bytes,
the root of the map is absent. -/
theorem unpack_leaves_root_absent :
    unpackFromMessage (fixedHeaderCodec [74, 1]) (ofNodeType 86) ([74, 1] ++ [0, 0, 0, 0]) 6
      = some (⟨86, none, []⟩, 6)
    ∧ unpackFromMessage (fixedHeaderCodec [74, 1]) (ofNodeType 86)
        ([74, 1] ++ [100, 0, 0, 0] ++ [0]) 7
      = some (⟨86, none, []⟩, 6) := by
  decide

/-- C14, amended: after default construction for a type the root is the degenerate root
key; after copy construction or copy assignment from any map the root is a present key,
the degenerate root key when the root of the source is absent; after `unpackFromMessage`
the root is present exactly when the root length field is positive and not larger than
the bytes remaining after it, and it is absent (null) otherwise. -/
theorem root_after_construction (t : Nat) (m other : JurisdictionMap)
    (codec : PacketHeaderCodec) (mem : List Nat) (availableBytes : Int) :
    (ofNodeType t).rootOctalCode = some [0]
    ∧ (∀ c, copyContents m other = some c →
        ∃ k, c.rootOctalCode = some k ∧ (other.rootOctalCode = none → k = [0]))
    ∧ (∀ (m' : JurisdictionMap) (n bytes : Int),
        unpackFromMessage codec m mem availableBytes = some (m', n) →
        readInt mem (codec.numBytesForPacketHeader mem) = some bytes →
        ((∃ k, m'.rootOctalCode = some k) ↔
          (0 < bytes ∧ bytes ≤ wrapInt32
            (wrapInt32 (availableBytes - codec.numBytesForPacketHeader mem) - sizeofInt)))) := by
  refine ⟨rfl, ?_, ?_⟩
  · intro c hc
    unfold copyContents copyContentsFrom at hc
    cases hr : other.rootOctalCode with
    | none =>
      simp only [hr, Option.bind_eq_bind, Option.some_bind, Option.bind_eq_some,
        Option.some.injEq] at hc
      obtain ⟨endNodes, _, hc⟩ := hc
      exact ⟨[0], by rw [← hc]; rfl, fun _ => rfl⟩
    | some code =>
      simp only [hr, Option.bind_eq_bind, Option.bind_eq_some, Option.some.injEq] at hc
      obtain ⟨rootCode, _, endNodes, _, hc⟩ := hc
      exact ⟨rootCode, by rw [← hc]; rfl, fun h => by cases h⟩
  · intro m' n bytes h hread
    rw [unpackFromMessage_eq, hread, Option.some_bind] at h
    split at h
    · rename_i hcond
      simp only [Option.bind_eq_some, Option.some.injEq, Prod.mk.injEq] at h
      obtain ⟨rootOctalCode, _, endNodeCount, _, res, _, hm, _⟩ := h
      rw [← hm]
      simp [hcond]
    · rename_i hcond
      simp only [Option.some.injEq, Prod.mk.injEq] at h
      rw [← h.1]
      simp only [clear, false_iff, reduceCtorEq, exists_false, not_false_eq_true, iff_true]
      exact hcond

/-- C14 amended, at a copy from a map without a root and at the unpack of a buffer with
a zero root length field. -/
theorem root_after_construction_witness :
    copyContents (ofNodeType 0) ⟨86, none, []⟩ = some ⟨86, some [0], []⟩
    ∧ unpackFromMessage (fixedHeaderCodec [74, 1]) (ofNodeType 0) ([74, 1] ++ [0, 0, 0, 0]) 6
      = some (⟨0, none, []⟩, 6)
    ∧ readInt ([74, 1] ++ [0, 0, 0, 0]) 2 = some 0
    ∧ ¬ ∃ k, (⟨0, none, []⟩ : JurisdictionMap).rootOctalCode = some k := by
  have h := root_after_construction 0 (ofNodeType 0) ⟨86, none, []⟩ (fixedHeaderCodec [74, 1])
    ([74, 1] ++ [0, 0, 0, 0]) 6
  refine ⟨by decide, by decide, by decide, ?_⟩
  intro hk
  have := (h.2.2 ⟨0, none, []⟩ 6 0 (by decide) (by decide)).1 hk
  exact absurd this.1 (by decide)

/-! ## Reads of `unpackFromMessage` against `availableBytes` -/

/-- C12 fails on the code. A 19-byte buffer (two-byte header, root length 1, root, end
node count 1, entry length 4, four payload bytes) is unpacked with `availableBytes` 15:
the run returns 19 and stores the payload read at offsets 15 to 18; on the first 15
bytes alone the same run reads past the end. With `availableBytes` 2, the header alone,
the root length field is read at offsets 2 to 5 and 6 is returned. -/
theorem unpack_reads_past_availableBytes :
    unpackFromMessage (fixedHeaderCodec [74, 1]) (ofNodeType 0)
        ([74, 1] ++ [1, 0, 0, 0] ++ [0] ++ [1, 0, 0, 0] ++ [4, 0, 0, 0] ++ [9, 9, 9, 9]) 15
      = some (⟨0, some [0], [some [9, 9, 9, 9]]⟩, 19)
    ∧ unpackFromMessage (fixedHeaderCodec [74, 1]) (ofNodeType 0)
        (([74, 1] ++ [1, 0, 0, 0] ++ [0] ++ [1, 0, 0, 0] ++ [4, 0, 0, 0] ++ [9, 9, 9, 9]).take 15)
        15
      = none
    ∧ unpackFromMessage (fixedHeaderCodec [74, 1]) (ofNodeType 0) ([74, 1] ++ [0, 0, 0, 0]) 2
      = some (⟨0, none, []⟩, 6)
    ∧ unpackFromMessage (fixedHeaderCodec [74, 1]) (ofNodeType 0) [74, 1] 2 = none := by
  decide

/-! ## Ownership: copy and clear on the heap -/

theorem Heap.deref_append_left (h added : Heap) (p : Nat) (hp : p < h.length) :
    Heap.deref (h ++ added) p = Heap.deref h p := by
  simp [Heap.deref, List.getElem?_append_left hp]

theorem Heap.deref_append_fresh (h : Heap) (cells : List (List Nat)) (p : Nat)
    (hlo : h.length ≤ p) (hhi : p < h.length + cells.length) :
    ∃ b, Heap.deref (h ++ cells.map some) p = some b := by
  have hlt : p - h.length < cells.length := by omega
  refine ⟨cells[p - h.length], ?_⟩
  simp [Heap.deref, List.getElem?_append_right hlo, List.getElem?_map,
    List.getElem?_eq_getElem hlt]

theorem Heap.deref_set_none (h : Heap) (p q : Nat) :
    Heap.deref (h.set p none) q = if q = p then none else Heap.deref h q := by
  unfold Heap.deref
  by_cases hq : q = p
  · subst hq
    by_cases hlt : q < h.length
    · simp [List.getElem?_set_self hlt]
    · simp [List.getElem?_eq_none (by simpa using hlt : (h.set q none).length ≤ q)]
  · simp [hq, List.getElem?_set_ne (Ne.symm hq)]

theorem Heap.free_eq (h h' : Heap) (p : Nat) (hf : Heap.free h p = some h') :
    h' = h.set p none ∧ ∃ b, Heap.deref h p = some b := by
  unfold Heap.free at hf
  cases hd : Heap.deref h p with
  | none => simp [hd] at hf
  | some b =>
    simp only [hd, Option.some.injEq] at hf
    exact ⟨hf.symm, b, rfl⟩

theorem freePointers_frame (ps : List (Option Nat)) :
    ∀ (h h' : Heap), freePointers h ps = some h' →
      h'.length = h.length ∧ ∀ q, some q ∉ ps → Heap.deref h' q = Heap.deref h q := by
  induction ps with
  | nil =>
    intro h h' hf
    simp only [freePointers, Option.some.injEq] at hf
    subst hf
    exact ⟨rfl, fun _ _ => rfl⟩
  | cons x rest ih =>
    intro h h' hf
    cases x with
    | none =>
      simp only [freePointers] at hf
      obtain ⟨hlen, hframe⟩ := ih h h' hf
      exact ⟨hlen, fun q hq => hframe q (fun hmem => hq (List.mem_cons_of_mem _ hmem))⟩
    | some p =>
      simp only [freePointers, Option.bind_eq_some] at hf
      obtain ⟨h1, hfree, hrest⟩ := hf
      obtain ⟨hset, _⟩ := Heap.free_eq h h1 p hfree
      obtain ⟨hlen, hframe⟩ := ih h1 h' hrest
      subst hset
      refine ⟨by simpa using hlen, fun q hq => ?_⟩
      have hne : q ≠ p := fun heq => hq (by simp [heq])
      rw [hframe q (fun hmem => hq (List.mem_cons_of_mem _ hmem)), Heap.deref_set_none, if_neg hne]

theorem freePointers_succeeds (ps : List (Option Nat)) :
    ∀ (h : Heap), (ps.filterMap id).Nodup →
      (∀ q, some q ∈ ps → ∃ b, Heap.deref h q = some b) →
      ∃ h', freePointers h ps = some h' := by
  induction ps with
  | nil => intro h _ _; exact ⟨h, rfl⟩
  | cons x rest ih =>
    intro h hnodup halloc
    cases x with
    | none =>
      have hnodup2 : (rest.filterMap id).Nodup := by simpa using hnodup
      simp only [freePointers]
      exact ih h hnodup2 (fun q hq => halloc q (List.mem_cons_of_mem _ hq))
    | some p =>
      have hnodup : some p ∉ rest ∧ (rest.filterMap id).Nodup := by simpa using hnodup
      obtain ⟨b, hb⟩ := halloc p (List.mem_cons_self _ _)
      have hfree : Heap.free h p = some (h.set p none) := by simp [Heap.free, hb]
      simp only [freePointers, hfree, Option.some_bind]
      refine ih (h.set p none) hnodup.2 (fun q hq => ?_)
      have hne : q ≠ p := fun heq => hnodup.1 (heq ▸ hq)
      rw [Heap.deref_set_none, if_neg hne]
      exact halloc q (List.mem_cons_of_mem _ hq)

theorem duplicateKey_eq (h h' : Heap) (p q : Nat) (hd : duplicateKey h p = some (h', q)) :
    ∃ b, h' = h ++ [some b] ∧ q = h.length := by
  simp only [duplicateKey, Heap.alloc, Option.bind_eq_some, Option.map_eq_some',
    Prod.mk.injEq] at hd
  obtain ⟨code, _, bytes, _, hh, hq⟩ := hd
  exact ⟨bytes, hh.symm, hq.symm⟩

theorem copyEndNodePointers_eq (ps : List (Option Nat)) :
    ∀ (h h' : Heap) (qs : List (Option Nat)), copyEndNodePointers h ps = some (h', qs) →
      ∃ cells : List (List Nat),
        h' = h ++ cells.map some ∧ qs = (List.range' h.length cells.length).map some := by
  induction ps with
  | nil =>
    intro h h' qs hc
    simp only [copyEndNodePointers, Option.some.injEq, Prod.mk.injEq] at hc
    exact ⟨[], by simp [hc.1], by simp [hc.2]⟩
  | cons x rest ih =>
    intro h h' qs hc
    cases x with
    | none =>
      simp only [copyEndNodePointers] at hc
      exact ih h h' qs hc
    | some p =>
      simp only [copyEndNodePointers, Option.bind_eq_some, Option.map_eq_some',
        Prod.mk.injEq, Prod.exists] at hc
      obtain ⟨h1, q, hdup, h2, qs2, hrest, hh, hqs⟩ := hc
      obtain ⟨b, hh1, hq⟩ := duplicateKey_eq h h1 p q hdup
      obtain ⟨cells, hh2, hqs2⟩ := ih h1 h2 qs2 hrest
      refine ⟨b :: cells, ?_, ?_⟩
      · rw [← hh, hh2, hh1]
        simp
      · rw [← hqs, hqs2, hq, hh1]
        simp [List.range'_succ]


theorem freePointers_freed (ps : List (Option Nat)) :
    ∀ (h h' : Heap), freePointers h ps = some h' →
      ∀ q, some q ∈ ps → Heap.deref h' q = none := by
  induction ps with
  | nil => intro h h' _ q hq; cases hq
  | cons x rest ih =>
    intro h h' hf q hq
    cases x with
    | none =>
      simp only [freePointers] at hf
      exact ih h h' hf q (by simpa using hq)
    | some p =>
      simp only [freePointers, Option.bind_eq_some] at hf
      obtain ⟨h1, hfree, hrest⟩ := hf
      by_cases hmem : some q ∈ rest
      · exact ih h1 h' hrest q hmem
      · have hqp : q = p := by
          rcases List.mem_cons.1 hq with heq | hin
          · exact Option.some.inj heq
          · exact absurd hin hmem
        obtain ⟨hset, _⟩ := Heap.free_eq h h1 p hfree
        rw [(freePointers_frame rest h1 h' hrest).2 q hmem, hset, Heap.deref_set_none,
          if_pos hqp]

theorem MapObject.mem_pointers (o : MapObject) (q : Nat) :
    q ∈ o.pointers ↔ some q ∈ o.rootOctalCode :: o.endNodes := by
  simp [MapObject.pointers, List.mem_filterMap]

theorem copyContentsObject_eq (h h1 : Heap) (o other c1 : MapObject)
    (hcopy : copyContentsObject h o other = some (h1, c1)) :
    ∃ (cells : List (List Nat)) (hA : Heap),
      hA = h ++ cells.map some
      ∧ freePointers hA (o.rootOctalCode :: o.endNodes) = some h1
      ∧ c1.nodeType = other.nodeType
      ∧ c1.rootOctalCode :: c1.endNodes = (List.range' h.length cells.length).map some := by
  unfold copyContentsObject at hcopy
  simp only [Option.bind_eq_some, Prod.exists] at hcopy
  obtain ⟨h0, q0, hroot, hA, qs, hends, hinit⟩ := hcopy
  have hroot2 : ∃ b, h0 = h ++ [some b] ∧ q0 = h.length := by
    cases hr : other.rootOctalCode with
    | none =>
      simp only [hr, Heap.alloc, Option.some.injEq, Prod.mk.injEq] at hroot
      exact ⟨[0], hroot.1.symm, hroot.2.symm⟩
    | some p =>
      simp only [hr] at hroot
      exact duplicateKey_eq h h0 p q0 hroot
  obtain ⟨b, hh0, hq0⟩ := hroot2
  obtain ⟨cells, hhA, hqs⟩ := copyEndNodePointers_eq other.endNodes h0 hA qs hends
  simp only [initObject, clearObject, Option.map_eq_some', Prod.mk.injEq, Prod.exists] at hinit
  obtain ⟨hB, oB, ⟨hB2, hfree, hhB, hoB⟩, hh1, hc1⟩ := hinit
  refine ⟨b :: cells, hA, ?_, ?_, ?_, ?_⟩
  · rw [hhA, hh0]
    simp
  · rw [← hh1, ← hhB]
    exact hfree
  · rw [← hc1, ← hoB]
  · rw [← hc1, hqs, hq0, hh0]
    simp [List.range'_succ]

/-- C18: `init` (and the constructor from a root and end nodes, which only calls it):
whatever the map held before, the root of the resulting map is the supplied root and
its end-node list is exactly the supplied list, same count, same order, duplicates
kept; none of the previous keys remains: on the heap each of them is released and no
other buffer is touched. -/
theorem init_eq (m : JurisdictionMap) (rootOctalCode : Option OctalCode)
    (endNodes : List (Option OctalCode)) (h h' : Heap) (o o' : MapObject)
    (root : Option Nat) (ends : List (Option Nat))
    (hinit : initObject h o root ends = some (h', o')) :
    (init m rootOctalCode endNodes).rootOctalCode = rootOctalCode
    ∧ (init m rootOctalCode endNodes).endNodes = endNodes
    ∧ init m rootOctalCode endNodes = init ⟨m.nodeType, none, []⟩ rootOctalCode endNodes
    ∧ o'.rootOctalCode = root ∧ o'.endNodes = ends
    ∧ (∀ q ∈ o.pointers, Heap.deref h' q = none)
    ∧ (∀ q, q ∉ o.pointers → Heap.deref h' q = Heap.deref h q) := by
  simp only [initObject, clearObject, Option.map_eq_some', Prod.mk.injEq, Prod.exists] at hinit
  obtain ⟨hB, oB, ⟨hB2, hfree, hhB, _⟩, hh, ho⟩ := hinit
  subst hhB hh
  refine ⟨rfl, rfl, rfl, by rw [← ho], by rw [← ho], ?_, ?_⟩
  · intro q hq
    exact freePointers_freed _ h hB2 hfree q ((MapObject.mem_pointers o q).1 hq)
  · intro q hq
    exact (freePointers_frame _ h hB2 hfree).2 q
      (fun hmem => hq ((MapObject.mem_pointers o q).2 hmem))

/-- C18 on a heap of four buffers: a map holding the buffers 0 and 1 is given the keys
2, 3 and 3 again. -/
theorem init_eq_witness :
    initObject [some [1, 64], some [2, 76], some [1, 96], some [2, 88]]
        ⟨86, some 0, [some 1]⟩ (some 2) [some 3, some 3]
      = some ([none, none, some [1, 96], some [2, 88]], ⟨86, some 2, [some 3, some 3]⟩)
    ∧ (init ⟨86, some [1, 64], [some [2, 76]]⟩ (some [1, 96]) [some [2, 88], some [2, 88]]).endNodes
      = [some [2, 88], some [2, 88]]
    ∧ ∀ q ∈ (⟨86, some 0, [some 1]⟩ : MapObject).pointers,
        Heap.deref [none, none, some [1, 96], some [2, 88]] q = none :=
  ⟨by decide,
    (init_eq ⟨86, some [1, 64], [some [2, 76]]⟩ (some [1, 96]) [some [2, 88], some [2, 88]]
      [some [1, 64], some [2, 76], some [1, 96], some [2, 88]]
      [none, none, some [1, 96], some [2, 88]]
      ⟨86, some 0, [some 1]⟩ ⟨86, some 2, [some 3, some 3]⟩ (some 2) [some 3, some 3]
      (by decide)).2.1,
    (init_eq ⟨86, some [1, 64], [some [2, 76]]⟩ (some [1, 96]) [some [2, 88], some [2, 88]]
      [some [1, 64], some [2, 76], some [1, 96], some [2, 88]]
      [none, none, some [1, 96], some [2, 88]]
      ⟨86, some 0, [some 1]⟩ ⟨86, some 2, [some 3, some 3]⟩ (some 2) [some 3, some 3]
      (by decide)).2.2.2.2.2.1⟩

/-- C16: deep copy independence. When M is copied into C (whose former keys are
allocated buffers) and C is then cleared, the clear succeeds, it releases only the fresh
buffers of the copy, and every key buffer of M that C did not hold before the copy has
the same bytes as before; the copy takes the node type of M, whose own fields are not
written. -/
theorem copy_then_clear_frame (h : Heap) (C M : MapObject)
    (hC : ∀ q ∈ C.pointers, q < h.length)
    (h1 : Heap) (C1 : MapObject) (hcopy : copyContentsObject h C M = some (h1, C1)) :
    C1.nodeType = M.nodeType
    ∧ ∃ h2 C2, clearObject h1 C1 = some (h2, C2)
        ∧ C2.rootOctalCode = none ∧ C2.endNodes = []
        ∧ ∀ q ∈ M.pointers, q ∉ C.pointers → Heap.deref h2 q = Heap.deref h q := by
  obtain ⟨cells, hA, hhA, hfree, htype, hptrs⟩ := copyContentsObject_eq h h1 C M C1 hcopy
  obtain ⟨hlen1, hframe1⟩ := freePointers_frame _ hA h1 hfree
  have hold : ∀ q, h.length ≤ q → some q ∉ C.rootOctalCode :: C.endNodes := by
    intro q hq hmem
    have := hC q ((MapObject.mem_pointers C q).2 hmem)
    omega
  have hfresh : ∀ q, some q ∈ C1.rootOctalCode :: C1.endNodes →
      h.length ≤ q ∧ q < h.length + cells.length := by
    intro q hq
    rw [hptrs] at hq
    simp only [List.mem_map, List.mem_range'_1, Option.some.injEq, exists_eq_right] at hq
    exact hq
  have hsucc : ∃ h2, freePointers h1 (C1.rootOctalCode :: C1.endNodes) = some h2 := by
    apply freePointers_succeeds
    · rw [hptrs]
      have : ((List.range' h.length cells.length).map some).filterMap id
          = List.range' h.length cells.length := by
        simp [List.filterMap_map]
      rw [this]
      exact List.nodup_range' _ _
    · intro q hq
      obtain ⟨hlo, hhi⟩ := hfresh q hq
      rw [hframe1 q (hold q hlo), hhA]
      exact Heap.deref_append_fresh h cells q hlo hhi
  obtain ⟨h2, hfree2⟩ := hsucc
  obtain ⟨hlen2, hframe2⟩ := freePointers_frame _ h1 h2 hfree2
  refine ⟨htype, h2, { C1 with rootOctalCode := none, endNodes := [] }, ?_, rfl, rfl, ?_⟩
  · simp [clearObject, hfree2]
  · intro q _ hqC
    have hqC2 : some q ∉ C.rootOctalCode :: C.endNodes :=
      fun hmem => hqC ((MapObject.mem_pointers C q).2 hmem)
    by_cases hq1 : some q ∈ C1.rootOctalCode :: C1.endNodes
    · obtain ⟨hlo, _⟩ := hfresh q hq1
      rw [freePointers_freed _ h1 h2 hfree2 q hq1]
      simp [Heap.deref, List.getElem?_eq_none hlo]
    · rw [hframe2 q hq1, hframe1 q hqC2, hhA]
      by_cases hlt : q < h.length
      · exact Heap.deref_append_left h _ q hlt
      · have hge : (h ++ cells.map some).length ≤ q := by
          by_contra hcon
          apply hq1
          rw [hptrs]
          simp only [List.length_append, List.length_map, not_le] at hcon
          simp only [List.mem_map, List.mem_range'_1, Option.some.injEq, exists_eq_right]
          omega
        simp [Heap.deref, List.getElem?_eq_none hge,
          List.getElem?_eq_none (by omega : h.length ≤ q)]

/-- C16 on a heap of four buffers: M holds the buffers 0, 1 and 2, C held buffer 3; the
copy takes the addresses 4, 5 and 6, and after the clear of the copy the buffers of M
hold their bytes. -/
theorem copy_then_clear_frame_witness :
    copyContentsObject [some [1, 64], some [2, 76], some [2, 88], some [0]]
        ⟨7, some 3, []⟩ ⟨86, some 0, [some 1, some 2]⟩
      = some ([some [1, 64], some [2, 76], some [2, 88], none,
                some [1, 64], some [2, 76], some [2, 88]],
              ⟨86, some 4, [some 5, some 6]⟩)
    ∧ ∃ h2 C2,
        clearObject [some [1, 64], some [2, 76], some [2, 88], none,
            some [1, 64], some [2, 76], some [2, 88]] ⟨86, some 4, [some 5, some 6]⟩
          = some (h2, C2)
        ∧ C2.rootOctalCode = none ∧ C2.endNodes = []
        ∧ ∀ q ∈ (⟨86, some 0, [some 1, some 2]⟩ : MapObject).pointers,
            q ∉ (⟨7, some 3, []⟩ : MapObject).pointers →
            Heap.deref h2 q
              = Heap.deref [some [1, 64], some [2, 76], some [2, 88], some [0]] q :=
  ⟨by decide,
    (copy_then_clear_frame [some [1, 64], some [2, 76], some [2, 88], some [0]]
      ⟨7, some 3, []⟩ ⟨86, some 0, [some 1, some 2]⟩ (by decide) _ _ (by decide)).2⟩

/-! ## Further properties of the containment query -/

theorem isUnderEndNode_congr (es1 es2 : List (Option OctalCode))
    (h : ∀ e, e ∈ es1 ↔ e ∈ es2) (node : Option OctalCode) :
    isUnderEndNode es1 node = isUnderEndNode es2 node := by
  rw [Bool.eq_iff_iff, isUnderEndNode_iff, isUnderEndNode_iff]
  constructor
  · rintro ⟨e, he, ha⟩
    exact ⟨e, (h e).1 he, ha⟩
  · rintro ⟨e, he, ha⟩
    exact ⟨e, (h e).2 he, ha⟩

/-- C21: the order of the end nodes and repeated entries do not affect the
classification: for every root, every two end-node lists that are permutations of one
another or have the same entries up to repetition, every candidate key and every hint,
`isMyJurisdiction` returns the same area for both maps. -/
theorem isMyJurisdiction_endNodes_congr (t : Nat) (root : Option OctalCode)
    (es1 es2 : List (Option OctalCode))
    (h : es1.Perm es2 ∨ ∀ e, e ∈ es1 ↔ e ∈ es2)
    (node : Option OctalCode) (childIndex : Option Nat) :
    isMyJurisdiction ⟨t, root, es1⟩ node childIndex
      = isMyJurisdiction ⟨t, root, es2⟩ node childIndex := by
  have hmem : ∀ e, e ∈ es1 ↔ e ∈ es2 := by
    rcases h with h | h
    · exact fun e => h.mem_iff
    · exact h
  simp only [isMyJurisdiction, isUnderEndNode_congr es1 es2 hmem node]

/-- C21 at two lists with the same entries, in another order and one repeated. -/
theorem isMyJurisdiction_endNodes_congr_witness :
    (∀ e, e ∈ [some (octalCodeOfSections [2, 3]), some (octalCodeOfSections [2, 5])] ↔
        e ∈ [some (octalCodeOfSections [2, 5]), some (octalCodeOfSections [2, 3]),
              some (octalCodeOfSections [2, 5])])
    ∧ isMyJurisdiction
        ⟨86, some (childOfRoot 2), [some (octalCodeOfSections [2, 3]), some (octalCodeOfSections [2, 5])]⟩
        (some (octalCodeOfSections [2, 5, 1])) none
      = isMyJurisdiction
        ⟨86, some (childOfRoot 2), [some (octalCodeOfSections [2, 5]), some (octalCodeOfSections [2, 3]),
              some (octalCodeOfSections [2, 5])]⟩
        (some (octalCodeOfSections [2, 5, 1])) none
    ∧ isMyJurisdiction
        ⟨86, some (childOfRoot 2), [some (octalCodeOfSections [2, 3]), some (octalCodeOfSections [2, 5])]⟩
        (some (octalCodeOfSections [2, 5, 1])) none = Area.BELOW := by
  have hmem : ∀ e, e ∈ [some (octalCodeOfSections [2, 3]), some (octalCodeOfSections [2, 5])] ↔
      e ∈ [some (octalCodeOfSections [2, 5]), some (octalCodeOfSections [2, 3]),
            some (octalCodeOfSections [2, 5])] := by
    intro e
    simp only [List.mem_cons, List.mem_singleton, List.not_mem_nil, or_false]
    tauto
  exact ⟨hmem,
    isMyJurisdiction_endNodes_congr 86 (some (childOfRoot 2)) _ _ (Or.inr hmem)
      (some (octalCodeOfSections [2, 5, 1])) none,
    by decide⟩

/-- C25: the child-index hint never changes the classification: for every map, every
candidate key and every child index c, `isMyJurisdiction(candidate, c)` equals
`isMyJurisdiction(candidate)` without a hint; the only candidates the hinted test of the
root treats differently, those whose child c is the root, are classified ABOVE by the
first test. -/
theorem isMyJurisdiction_hint (m : JurisdictionMap) (node : Option OctalCode) (c : Nat) :
    isMyJurisdiction m node (some c) = isMyJurisdiction m node none := by
  cases hnode : node with
  | none => simp [isMyJurisdiction, isAncestorOf_none_left, isAncestorOf_none_right]
  | some k =>
    cases hroot : m.rootOctalCode with
    | none => simp [isMyJurisdiction, hroot, isAncestorOf_none_left, isAncestorOf_none_right]
    | some r =>
      cases habove : isAncestorOf (some k) (some r) none with
      | true => simp [isMyJurisdiction, hroot, habove]
      | false =>
        have hsame : isAncestorOf (some r) (some k) (some c)
            = isAncestorOf (some r) (some k) none := by
          rw [Bool.eq_iff_iff]
          constructor
          · intro h
            rw [isAncestorOf_some_iff] at h ⊢
            simp only [Option.toList_some, Option.toList_none, List.append_nil] at h ⊢
            rcases List.prefix_concat_iff.1 h with heq | hpre
            · exfalso
              have hk : isAncestorOf (some k) (some r) none = true := by
                rw [isAncestorOf_some_iff, heq]
                simp
              rw [habove] at hk
              exact absurd hk (by decide)
            · exact hpre
          · exact isAncestorOf_hint_of_isAncestorOf r k (some c)
        simp only [isMyJurisdiction, hroot, habove, hsame]

/-- C30: on the default map for any node type, every key with at least one section is
classified WITHIN, with or without a child hint. -/
theorem isMyJurisdiction_ofNodeType (t : Nat) (K : OctalCode)
    (hK : 0 < numberOfThreeBitSectionsInCode K) (childIndex : Option Nat) :
    isMyJurisdiction (ofNodeType t) (some K) childIndex = Area.WITHIN := by
  have hne : sectionsOf K ≠ [] := by
    intro hnil
    have hlen : (sectionsOf K).length = numberOfThreeBitSectionsInCode K := by
      simp [sectionsOf]
    rw [hnil] at hlen
    simp only [List.length_nil] at hlen
    omega
  have habove : isAncestorOf (some K) (some [0]) none = false := by
    rw [← Bool.not_eq_true, isAncestorOf_some_iff]
    have h0 : sectionsOf [0] = [] := by decide
    simp only [h0, Option.toList_none, List.append_nil, List.prefix_nil]
    exact hne
  have hin : isAncestorOf (some [0]) (some K) childIndex = true := by
    rw [isAncestorOf_some_iff]
    have h0 : sectionsOf [0] = [] := by decide
    rw [h0]
    exact List.nil_prefix
  simp [isMyJurisdiction, ofNodeType, init, clear, habove, hin, isUnderEndNode]

/-- C30 at the key "child 5 of root" with hint 2 on the default map for type 86. -/
theorem isMyJurisdiction_ofNodeType_witness :
    0 < numberOfThreeBitSectionsInCode (childOfRoot 5)
    ∧ isMyJurisdiction (ofNodeType 86) (some (childOfRoot 5)) (some 2) = Area.WITHIN :=
  ⟨by decide, isMyJurisdiction_ofNodeType 86 (childOfRoot 5) (by decide) (some 2)⟩

/-! ## Frame of `unpackFromMessage` -/

/-- C26: `unpackFromMessage` never changes the node type of the map, whatever the
message carries, and replaces the root and the end nodes whatever they were: the run on
a map is the run on the empty map of node type 0 with the node type put back. -/
theorem unpackFromMessage_nodeType (codec : PacketHeaderCodec) (m : JurisdictionMap)
    (mem : List Nat) (availableBytes : Int) :
    (∀ (m' : JurisdictionMap) (n : Int),
      unpackFromMessage codec m mem availableBytes = some (m', n) →
      m'.nodeType = m.nodeType)
    ∧ unpackFromMessage codec m mem availableBytes
      = (unpackFromMessage codec ⟨0, none, []⟩ mem availableBytes).map
          (fun r => ({ r.1 with nodeType := m.nodeType }, r.2)) := by
  have hmap : unpackFromMessage codec m mem availableBytes
      = (unpackFromMessage codec ⟨0, none, []⟩ mem availableBytes).map
          (fun r => ({ r.1 with nodeType := m.nodeType }, r.2)) := by
    rw [unpackFromMessage_eq, unpackFromMessage_eq]
    cases readInt mem (codec.numBytesForPacketHeader mem) with
    | none => rfl
    | some bytes =>
      simp only [Option.some_bind]
      split
      · cases readBytes mem (codec.numBytesForPacketHeader mem + sizeofInt) bytes.toNat with
        | none => rfl
        | some rootOctalCode =>
          simp only [Option.some_bind]
          cases readInt mem (codec.numBytesForPacketHeader mem + sizeofInt + bytes.toNat) with
          | none => rfl
          | some endNodeCount =>
            simp only [Option.some_bind]
            cases unpackEndNodes mem endNodeCount.toNat
                (codec.numBytesForPacketHeader mem + sizeofInt + bytes.toNat + sizeofInt)
                (wrapInt32 (wrapInt32
                  (availableBytes - codec.numBytesForPacketHeader mem) - sizeofInt) - bytes)
                [] with
            | none => rfl
            | some res => rfl
      · rfl
  refine ⟨?_, hmap⟩
  intro m' n h
  rw [hmap] at h
  simp only [Option.map_eq_some', Prod.mk.injEq, Prod.exists] at h
  obtain ⟨m0, n0, _, hm, _⟩ := h
  rw [← hm]

/-- C26 on a buffer unpacked into the default map for type 86. -/
theorem unpackFromMessage_nodeType_witness :
    unpackFromMessage (fixedHeaderCodec [74, 1]) (ofNodeType 86)
        ([74, 1] ++ [1, 0, 0, 0] ++ [7] ++ [0, 0, 0, 0]) 11
      = some (⟨86, some [7], []⟩, 11)
    ∧ (⟨86, some [7], []⟩ : JurisdictionMap).nodeType = (ofNodeType 86).nodeType :=
  ⟨by decide,
    (unpackFromMessage_nodeType (fixedHeaderCodec [74, 1]) (ofNodeType 86)
      ([74, 1] ++ [1, 0, 0, 0] ++ [7] ++ [0, 0, 0, 0]) 11).1 ⟨86, some [7], []⟩ 11
      (by decide)⟩

/-! ## Construction from hex strings and from a settings file -/

theorem pushHexEndNodes_eq (decode : List Char → Option OctalCode) (items : List (List Char)) :
    ∀ endNodes : List (Option OctalCode),
      pushHexEndNodes decode items endNodes = endNodes ++ items.map decode := by
  induction items with
  | nil => intro endNodes; simp [pushHexEndNodes]
  | cons item rest ih => intro endNodes; simp [pushHexEndNodes, ih]

theorem splitOnP_not_mem (p : Char → Bool) :
    ∀ (xs : List Char), ∀ item ∈ xs.splitOnP p, ∀ c ∈ item, p c = false := by
  intro xs
  induction xs with
  | nil =>
    intro item hitem c hc
    simp only [List.splitOnP_nil, List.mem_singleton] at hitem
    rw [hitem] at hc
    cases hc
  | cons x rest ih =>
    intro item hitem c hc
    rw [List.splitOnP_cons] at hitem
    by_cases hx : p x = true
    · simp only [hx, if_true, List.mem_cons] at hitem
      rcases hitem with hnil | hmem
      · rw [hnil] at hc
        cases hc
      · exact ih item hmem c hc
    · simp only [hx, Bool.false_eq_true, if_false] at hitem
      cases hsplit : List.splitOnP p rest with
      | nil => exact absurd hsplit (List.splitOnP_ne_nil p rest)
      | cons first more =>
        rw [hsplit] at hitem ih
        simp only [List.modifyHead_cons, List.mem_cons] at hitem
        rcases hitem with hfirst | hmem
        · rw [hfirst] at hc
          rcases List.mem_cons.1 hc with hcx | hcf
          · rw [hcx]
            simpa using hx
          · exact ih first (List.mem_cons_self _ _) c hcf
        · exact ih item (List.mem_cons_of_mem _ hmem) c hc

/-- C22: the constructor from hex strings sets the root to the key decoded from
`rootHexCode` and the end-node list to the decoding of each comma-separated item of
`endNodesHexCodes`, one end node per item, in list order; the items are the pieces
without a comma that, joined by commas, give the string. -/
theorem ofHexCodes_eq (decode : List Char → Option OctalCode) (nodeType : Nat)
    (rootHexCode endNodesHexCodes : List Char) :
    (ofHexCodes decode nodeType rootHexCode endNodesHexCodes).rootOctalCode
        = decode rootHexCode
    ∧ (ofHexCodes decode nodeType rootHexCode endNodesHexCodes).endNodes
        = (endNodesHexCodes.splitOn ',').map decode
    ∧ (ofHexCodes decode nodeType rootHexCode endNodesHexCodes).endNodes.length
        = (endNodesHexCodes.splitOn ',').length
    ∧ [','].intercalate (endNodesHexCodes.splitOn ',') = endNodesHexCodes
    ∧ ∀ item ∈ endNodesHexCodes.splitOn ',', ',' ∉ item := by
  have hends : (ofHexCodes decode nodeType rootHexCode endNodesHexCodes).endNodes
      = (endNodesHexCodes.splitOn ',').map decode := by
    simp [ofHexCodes, pushHexEndNodes_eq]
  refine ⟨rfl, hends, by rw [hends, List.length_map],
    List.intercalate_splitOn endNodesHexCodes ',', ?_⟩
  intro item hitem hmem
  have := splitOnP_not_mem (fun c => c == ',') endNodesHexCodes item hitem ',' hmem
  simp at this

theorem hexStringToOctalCode_malformed :
    ∀ (s : List Char), (s.length % 2 = 1 ∨ ∃ c ∈ s, hexDigitValue c = none) →
      hexStringToOctalCode s = none
  | [], h => by
    rcases h with h | ⟨c, hc, _⟩
    · simp at h
    · cases hc
  | [_], _ => rfl
  | hi :: lo :: rest, h => by
    cases hhi : hexDigitValue hi with
    | none => simp [hexStringToOctalCode, hhi]
    | some a =>
      cases hlo : hexDigitValue lo with
      | none => simp [hexStringToOctalCode, hhi, hlo]
      | some b =>
        have hrest : rest.length % 2 = 1 ∨ ∃ c ∈ rest, hexDigitValue c = none := by
          rcases h with h | ⟨c, hc, hbad⟩
          · left
            simp only [List.length_cons] at h
            omega
          · right
            rcases List.mem_cons.1 hc with h1 | hc
            · rw [h1, hhi] at hbad
              cases hbad
            · rcases List.mem_cons.1 hc with h2 | hc
              · rw [h2, hlo] at hbad
                cases hbad
              · exact ⟨c, hc, hbad⟩
        simp [hexStringToOctalCode, hhi, hlo, hexStringToOctalCode_malformed rest hrest]

/-- C24: a hex string of odd length or with a character that is not a hex digit decodes
to no key; passed to the constructor from hex strings as the root it leaves the root
without a key, and as an item of the end-node list it gives an entry without a key at
the place of the item; every run returns. -/
theorem hexStringToOctalCode_malformed_key (s : List Char)
    (hbad : s.length % 2 = 1 ∨ ∃ c ∈ s, hexDigitValue c = none) :
    hexStringToOctalCode s = none
    ∧ (∀ (t : Nat) (ends : List Char),
        (ofHexCodes hexStringToOctalCode t s ends).rootOctalCode = none)
    ∧ (∀ (t : Nat) (root ends : List Char) (i : Nat),
        (ends.splitOn ',')[i]? = some s →
        (ofHexCodes hexStringToOctalCode t root ends).endNodes[i]? = some none) := by
  have hnone := hexStringToOctalCode_malformed s hbad
  refine ⟨hnone, fun t ends => hnone, ?_⟩
  intro t root ends i hi
  have hends : (ofHexCodes hexStringToOctalCode t root ends).endNodes
      = (ends.splitOn ',').map hexStringToOctalCode := by
    simp [ofHexCodes, pushHexEndNodes_eq]
  rw [hends, List.getElem?_map, hi]
  simp [hnone]

/-- C24 at the strings of the spec, "zz" as the second end-node item and "abc" as the
root. -/
theorem hexStringToOctalCode_malformed_key_witness :
    hexStringToOctalCode ['z', 'z'] = none
    ∧ hexStringToOctalCode ['a', 'b', 'c'] = none
    ∧ ofHexCodes hexStringToOctalCode 86 ['a', 'b', 'c']
        ['0', '1', '6', '0', ',', 'z', 'z', ',', '0', '2', '5', '8']
      = ⟨86, none, [some [1, 96], none, some [2, 88]]⟩ :=
  ⟨(hexStringToOctalCode_malformed_key ['z', 'z'] (Or.inr ⟨'z', by decide, by decide⟩)).1,
    (hexStringToOctalCode_malformed_key ['a', 'b', 'c'] (Or.inl (by decide))).1,
    by decide⟩

/-- C23: `readFromFile` on a store without a `root` key decodes the hex string "00",
so that with a decoder that reads "00" as one zero byte (as the decoder of the spec
does) the root is the degenerate root key; the decoded values of the keys of the group
`endNodes` come, in order, after the end nodes the map held, and on the cleared map of
the constructor from a file they are all its end nodes. -/
theorem readFromFile_default_root (decode : List Char → Option OctalCode)
    (hdecode : decode ['0', '0'] = some [0]) (settings : SettingsStore)
    (hroot : settings.root = none) (m : JurisdictionMap) (nodeType : Nat) :
    (readFromFile decode settings m).1.rootOctalCode = some rootKey
    ∧ (readFromFile decode settings m).1.endNodes
        = m.endNodes ++ settings.endNodes.map (fun kv => decode kv.2)
    ∧ (ofFile decode nodeType settings).rootOctalCode = some rootKey
    ∧ (ofFile decode nodeType settings).endNodes
        = settings.endNodes.map (fun kv => decode kv.2)
    ∧ hexStringToOctalCode ['0', '0'] = some [0] := by
  refine ⟨?_, ?_, ?_, ?_, by decide⟩
  · simp [readFromFile, hroot, hdecode, rootKey]
  · simp [readFromFile, pushHexEndNodes_eq, List.map_map, Function.comp_def]
  · simp [ofFile, readFromFile, hroot, hdecode, rootKey]
  · simp [ofFile, readFromFile, clear, pushHexEndNodes_eq, List.map_map, Function.comp_def]

/-- C23 at a store with two end-node keys and no root key, read with the decoder of the
spec. -/
theorem readFromFile_default_root_witness :
    ofFile hexStringToOctalCode 86
        ⟨none, [(['e', '0'], ['0', '1', '6', '0']), (['e', '1'], ['0', '2', '5', '8'])]⟩
      = ⟨86, some [0], [some [1, 96], some [2, 88]]⟩
    ∧ (ofFile hexStringToOctalCode 86
        ⟨none, [(['e', '0'], ['0', '1', '6', '0']), (['e', '1'], ['0', '2', '5', '8'])]⟩).rootOctalCode
      = some rootKey :=
  ⟨by decide,
    (readFromFile_default_root hexStringToOctalCode (by decide)
      ⟨none, [(['e', '0'], ['0', '1', '6', '0']), (['e', '1'], ['0', '2', '5', '8'])]⟩
      rfl (ofNodeType 0) 86).2.2.1⟩

/-! ## Packing against the destination capacity -/

/-- C28, as stated, fails: with `availableBytes` 0 the empty-jurisdiction message for
node type 86 (two-byte header) has 7 bytes and the packed default map (LP64) has 16;
the returned counts are 7 and 16. -/
theorem pack_exceeds_availableBytes :
    ¬ (∀ availableBytes : Int,
        (packEmptyJurisdictionIntoMessage (fixedHeaderCodec [74, 1]) 86).2 ≤ availableBytes)
    ∧ ¬ (∀ availableBytes : Int, ∀ r,
        packIntoMessage (fixedHeaderCodec [74, 1]) lp64 (ofNodeType 86) = some r →
        r.2 ≤ availableBytes)
    ∧ (packEmptyJurisdictionIntoMessage (fixedHeaderCodec [74, 1]) 86).2 = 7
    ∧ (packIntoMessage (fixedHeaderCodec [74, 1]) lp64 (ofNodeType 86)).map Prod.snd
        = some 16 := by
  refine ⟨fun h => absurd (h 0) (by decide), fun h => ?_, by decide, by decide⟩
  exact absurd (h 0 _ (by decide :
    packIntoMessage (fixedHeaderCodec [74, 1]) lp64 (ofNodeType 86)
      = some ([74, 1, 86, 1, 0, 0, 0, 0, 0, 0, 0, 0, 0, 0, 0, 0], 16))) (by decide)

/-- C28, amended: `packIntoMessage` and `packEmptyJurisdictionIntoMessage` do not look at
`availableBytes`. Every run writes the header, the node-type byte and at least four more
bytes, and returns the number of bytes written reduced to an `int`; so whenever
`availableBytes` is below the header length plus 5, more than `availableBytes` bytes are
written. -/
theorem pack_ignores_availableBytes (codec : PacketHeaderCodec) (sizeofSizeT t : Nat)
    (m : JurisdictionMap) (availableBytes : Int) :
    (packEmptyJurisdictionIntoMessage codec t).1.length
        = codec.populatePacketHeader.length + 5
    ∧ (packEmptyJurisdictionIntoMessage codec t).2
        = wrapInt32 (packEmptyJurisdictionIntoMessage codec t).1.length
    ∧ (∀ r, packIntoMessage codec sizeofSizeT m = some r →
        codec.populatePacketHeader.length + 5 ≤ r.1.length ∧ r.2 = wrapInt32 r.1.length)
    ∧ (availableBytes < (codec.populatePacketHeader.length + 5 : Nat) →
        availableBytes < (packEmptyJurisdictionIntoMessage codec t).1.length
        ∧ ∀ r, packIntoMessage codec sizeofSizeT m = some r →
            availableBytes < r.1.length) := by
  have hempty : (packEmptyJurisdictionIntoMessage codec t).1.length
      = codec.populatePacketHeader.length + 5 := by
    simp [packEmptyJurisdictionIntoMessage, encodeLE_length, sizeofInt]
  have hpack : ∀ r, packIntoMessage codec sizeofSizeT m = some r →
      codec.populatePacketHeader.length + 5 ≤ r.1.length ∧ r.2 = wrapInt32 r.1.length := by
    intro r hr
    unfold packIntoMessage at hr
    cases hroot : m.rootOctalCode with
    | none =>
      simp only [hroot, Option.bind_eq_bind, Option.pure_def, Option.some.injEq] at hr
      rw [← hr]
      simp [encodeLE_length, sizeofInt]
    | some root =>
      simp only [hroot, Option.bind_eq_bind, Option.pure_def, Option.bind_eq_some,
        Option.some.injEq] at hr
      obtain ⟨rootBytes, _, packed, _, hr⟩ := hr
      rw [← hr]
      simp only [List.length_append, encodeLE_length, List.length_singleton, sizeofInt,
        and_true]
      omega
  refine ⟨hempty, rfl, hpack, ?_⟩
  intro hsmall
  refine ⟨by rw [hempty]; exact hsmall, fun r hr => ?_⟩
  have := (hpack r hr).1
  omega

/-- C28 amended, at a capacity of 6 bytes with a two-byte header. -/
theorem pack_ignores_availableBytes_witness :
    (6 : Int) < (((fixedHeaderCodec [74, 1]).populatePacketHeader.length + 5 : Nat) : Int)
    ∧ (6 : Int) < (packEmptyJurisdictionIntoMessage (fixedHeaderCodec [74, 1]) 86).1.length
    ∧ ∀ r, packIntoMessage (fixedHeaderCodec [74, 1]) lp64 (ofNodeType 86) = some r →
        (6 : Int) < r.1.length :=
  ⟨by decide,
    (pack_ignores_availableBytes (fixedHeaderCodec [74, 1]) lp64 86 (ofNodeType 86) 6).2.2.2
      (by decide)⟩

/-! ## Copy of an unpacked map -/

theorem copyEndNodes_self (endNodes : List (Option OctalCode))
    (h : ∀ e ∈ endNodes, ∃ k : OctalCode, e = some k
      ∧ k.length = bytesRequiredForCodeLength (numberOfThreeBitSectionsInCode k)) :
    copyEndNodes endNodes = some endNodes := by
  induction endNodes with
  | nil => rfl
  | cons e rest ih =>
    obtain ⟨k, hk, hlen⟩ := h e (List.mem_cons_self e rest)
    have ih2 := ih (fun x hx => h x (List.mem_cons_of_mem e hx))
    subst hk
    simp [copyEndNodes, ← hlen, readBytes_all, ih2]

theorem unpackFromMessage_endNodes_present (codec : PacketHeaderCodec) (m : JurisdictionMap)
    (mem : List Nat) (availableBytes : Int) (m' : JurisdictionMap) (n : Int)
    (h : unpackFromMessage codec m mem availableBytes = some (m', n)) :
    ∀ e ∈ m'.endNodes, ∃ k : OctalCode, e = some k := by
  rw [unpackFromMessage_eq] at h
  cases hlen : readInt mem (codec.numBytesForPacketHeader mem) with
  | none => simp [hlen] at h
  | some bytes =>
    rw [hlen, Option.some_bind] at h
    split at h
    · simp only [Option.bind_eq_some, Option.some.injEq, Prod.mk.injEq] at h
      obtain ⟨rootOctalCode, _, endNodeCount, _, res, hres, hm, _⟩ := h
      rw [← hm]
      exact unpackEndNodes_invariant (fun e => ∃ k : OctalCode, e = some k)
        (fun k _ => ⟨k, rfl⟩) mem _ _ _ _ res hres (by simp)
    · simp only [Option.some.injEq, Prod.mk.injEq] at h
      rw [← h.1]
      simp [clear]

/-- C29, as stated, fails: `unpackFromMessage` stores a root of three bytes whose first
byte announces no section, and the copy holds only its first byte; it stores a root of
one byte whose first byte announces five sections, and the copy would read three bytes
of it. -/
theorem copy_of_unpacked_differs :
    unpackFromMessage (fixedHeaderCodec [74, 1]) (ofNodeType 86)
        ([74, 1] ++ [3, 0, 0, 0] ++ [0, 9, 9] ++ [0, 0, 0, 0]) 13
      = some (⟨86, some [0, 9, 9], []⟩, 13)
    ∧ copyContents (ofNodeType 0) ⟨86, some [0, 9, 9], []⟩ = some ⟨86, some [0], []⟩
    ∧ unpackFromMessage (fixedHeaderCodec [74, 1]) (ofNodeType 86)
        ([74, 1] ++ [1, 0, 0, 0] ++ [5] ++ [0, 0, 0, 0]) 11
      = some (⟨86, some [5], []⟩, 11)
    ∧ copyContents (ofNodeType 0) ⟨86, some [5], []⟩ = none := by
  decide

/-- C29, amended: copying the map produced by `unpackFromMessage` yields a map equal to
it, root and end nodes byte-identical and in the same order, when the unpacked root is
present and the unpacked root and end nodes have the byte length implied by the section
count in their first byte. -/
theorem copy_of_unpacked (codec : PacketHeaderCodec) (m target : JurisdictionMap)
    (mem : List Nat) (availableBytes : Int) (m' : JurisdictionMap) (n : Int)
    (hunpack : unpackFromMessage codec m mem availableBytes = some (m', n))
    (root : OctalCode) (hroot : m'.rootOctalCode = some root)
    (hR : root.length = bytesRequiredForCodeLength (numberOfThreeBitSectionsInCode root))
    (hE : ∀ k : OctalCode, some k ∈ m'.endNodes →
      k.length = bytesRequiredForCodeLength (numberOfThreeBitSectionsInCode k)) :
    copyContents target m' = some m' := by
  have hpresent := unpackFromMessage_endNodes_present codec m mem availableBytes m' n hunpack
  have hends : copyEndNodes m'.endNodes = some m'.endNodes := by
    apply copyEndNodes_self
    intro e he
    obtain ⟨k, hk⟩ := hpresent e he
    exact ⟨k, hk, hE k (hk ▸ he)⟩
  cases m' with
  | mk t r es =>
    simp only at hroot hends
    subst hroot
    simp [copyContents, copyContentsFrom, ← hR, readBytes_all, hends, init, clear]

/-- C29 amended, on a buffer with the root "child 2 of root" and the end node [2, 3]. -/
theorem copy_of_unpacked_witness :
    unpackFromMessage (fixedHeaderCodec [74, 1]) (ofNodeType 86)
        ([74, 1] ++ [2, 0, 0, 0] ++ [1, 64] ++ [1, 0, 0, 0] ++ [2, 0, 0, 0] ++ [2, 76]) 18
      = some (⟨86, some [1, 64], [some [2, 76]]⟩, 18)
    ∧ copyContents (ofNodeType 0) ⟨86, some [1, 64], [some [2, 76]]⟩
      = some ⟨86, some [1, 64], [some [2, 76]]⟩ :=
  ⟨by decide,
    copy_of_unpacked (fixedHeaderCodec [74, 1]) (ofNodeType 86) (ofNodeType 0)
      ([74, 1] ++ [2, 0, 0, 0] ++ [1, 64] ++ [1, 0, 0, 0] ++ [2, 0, 0, 0] ++ [2, 76]) 18
      ⟨86, some [1, 64], [some [2, 76]]⟩ 18 (by decide) [1, 64] rfl (by decide)
      (fun k hk => by
        simp only [List.mem_singleton, Option.some.injEq] at hk
        subst hk
        decide)⟩

/-! ## `unpackFromMessage` on a well-formed buffer -/

theorem readInt_encodeLE (mem pre rest : List Nat) (v : Nat) (hv : v < 2147483648)
    (hmem : mem = pre ++ (encodeLE sizeofInt v ++ rest)) :
    readInt mem pre.length = some (v : Int) := by
  subst hmem
  have hlen : (encodeLE sizeofInt v).length = sizeofInt := encodeLE_length _ _
  have htake : List.take sizeofInt (encodeLE sizeofInt v ++ rest) = encodeLE sizeofInt v :=
    List.take_left' hlen
  have hfits : pre.length + sizeofInt ≤ (pre ++ (encodeLE sizeofInt v ++ rest)).length := by
    simp only [List.length_append, hlen]
    omega
  have hmod : v % 256 ^ sizeofInt = v := Nat.mod_eq_of_lt (by simp only [sizeofInt]; omega)
  simp only [readInt, readBytes, if_pos hfits, Option.map_some', List.drop_left, htake,
    decodeLE_encodeLE, hmod, toSigned_of_small v hv]

theorem readBytes_middle (mem pre e rest : List Nat) (hmem : mem = pre ++ (e ++ rest)) :
    readBytes mem pre.length e.length = some e := by
  subst hmem
  have hfits : pre.length + e.length ≤ (pre ++ (e ++ rest)).length := by
    simp only [List.length_append]
    omega
  simp only [readBytes, if_pos hfits, List.drop_left, List.take_left]

theorem unpackEndNodes_layout :
    ∀ (ends : List OctalCode) (mem pre rest : List Nat) (remainingBytes : Int)
      (acc : List (Option OctalCode)),
      mem = pre ++ (ends.flatMap (fun e => encodeLE sizeofInt e.length ++ e) ++ rest) →
      (∀ e ∈ ends, e ≠ []) →
      ((ends.flatMap (fun e => encodeLE sizeofInt e.length ++ e)).length : Int)
        ≤ remainingBytes →
      remainingBytes < 2147483648 →
      unpackEndNodes mem ends.length pre.length remainingBytes acc
        = some (pre.length + (ends.flatMap (fun e => encodeLE sizeofInt e.length ++ e)).length,
            remainingBytes
              - ((ends.flatMap (fun e => encodeLE sizeofInt e.length ++ e)).length : Int),
            acc ++ ends.map some) := by
  intro ends
  induction ends with
  | nil =>
    intro mem pre rest remainingBytes acc _ _ _ _
    simp [unpackEndNodes]
  | cons e es ih =>
    intro mem pre rest remainingBytes acc hmem hne hfit hint
    have he : e ≠ [] := hne e (List.mem_cons_self e es)
    have hepos : 0 < e.length := List.length_pos.2 he
    have htotal : ((e :: es).flatMap (fun e => encodeLE sizeofInt e.length ++ e)).length
        = sizeofInt + e.length
          + (es.flatMap (fun e => encodeLE sizeofInt e.length ++ e)).length := by
      simp only [List.flatMap_cons, List.length_append, encodeLE_length]
    have hsz : sizeofInt = 4 := rfl
    rw [htotal] at hfit
    have hmem1 : mem = pre ++ (encodeLE sizeofInt e.length
        ++ (e ++ (es.flatMap (fun e => encodeLE sizeofInt e.length ++ e) ++ rest))) := by
      rw [hmem]
      simp only [List.flatMap_cons, List.append_assoc]
    have hmem2 : mem = (pre ++ encodeLE sizeofInt e.length)
        ++ (e ++ (es.flatMap (fun e => encodeLE sizeofInt e.length ++ e) ++ rest)) := by
      rw [hmem1]
      simp only [List.append_assoc]
    have hmem3 : mem = (pre ++ encodeLE sizeofInt e.length ++ e)
        ++ (es.flatMap (fun e => encodeLE sizeofInt e.length ++ e) ++ rest) := by
      rw [hmem1]
      simp only [List.append_assoc]
    have hread := readInt_encodeLE mem pre _ e.length (by omega) hmem1
    have hwrap : wrapInt32 (remainingBytes - ((sizeofInt : Nat) : Int)) = remainingBytes - 4 := by
      have h4 : ((sizeofInt : Nat) : Int) = 4 := rfl
      rw [h4]
      exact wrapInt32_of_range _ (by omega) (by omega)
    have hlen2 : (pre ++ encodeLE sizeofInt e.length).length = pre.length + sizeofInt := by
      simp only [List.length_append, encodeLE_length]
    have hpay : readBytes mem (pre.length + sizeofInt) ((e.length : Int)).toNat = some e := by
      rw [Int.toNat_ofNat, ← hlen2]
      exact readBytes_middle mem _ e _ hmem2
    have hlen3 : pre.length + sizeofInt + ((e.length : Int)).toNat
        = (pre ++ encodeLE sizeofInt e.length ++ e).length := by
      simp only [Int.toNat_ofNat, List.length_append, encodeLE_length]
    have hcond : (e.length : Int) ≤ remainingBytes - 4 := by omega
    have hnonneg : ¬ ((e.length : Int) < 0) := by omega
    have hposI : (0 : Int) < (e.length : Int) := by omega
    have hfit2 : ((es.flatMap (fun e => encodeLE sizeofInt e.length ++ e)).length : Int)
        ≤ remainingBytes - 4 - e.length := by omega
    have hint2 : remainingBytes - 4 - (e.length : Int) < 2147483648 := by omega
    have hrec := ih mem (pre ++ encodeLE sizeofInt e.length ++ e) rest
      (remainingBytes - 4 - e.length) (acc ++ [some e]) hmem3
      (fun x hx => hne x (List.mem_cons_of_mem e hx)) hfit2 hint2
    rw [List.length_cons, unpackEndNodes_succ, hread, Option.some_bind, hwrap, if_pos hcond,
      if_neg hnonneg, hpay, Option.some_bind, if_pos hposI, hlen3, hrec, htotal]
    simp only [List.length_append, encodeLE_length, List.map_cons,
      List.append_assoc, List.singleton_append, Option.some.injEq, Prod.mk.injEq, and_true]
    constructor
    · omega
    · push_cast
      omega

theorem length_le_flatMap_entries (ends : List OctalCode) :
    ends.length ≤ (ends.flatMap (fun e => encodeLE sizeofInt e.length ++ e)).length := by
  induction ends with
  | nil => simp
  | cons e es ih =>
    have hsz : sizeofInt = 4 := rfl
    simp only [List.flatMap_cons, List.length_cons, List.length_append, encodeLE_length]
    omega

/-- C27: on a buffer that starts with the packet header, the root length L > 0 as an
`int`, the L root bytes, the count n as an `int` and n entries, each a length Li > 0 as
an `int` followed by Li bytes, all of it within `availableBytes`, `unpackFromMessage`
sets the root to the L root bytes and the end-node list to the n payloads in order, and
returns the number of bytes of that layout. -/
theorem unpackFromMessage_unpackLayout (codec : PacketHeaderCodec) (hc : codec.Consistent)
    (m : JurisdictionMap) (root : OctalCode) (ends : List OctalCode) (trailing : List Nat)
    (availableBytes : Int) (hroot : root ≠ []) (hends : ∀ e ∈ ends, e ≠ [])
    (hfit : ((unpackLayout codec root ends).length : Int) ≤ availableBytes)
    (hint : availableBytes < 2147483648) :
    unpackFromMessage codec m (unpackLayout codec root ends ++ trailing) availableBytes
      = some (⟨m.nodeType, some root, ends.map some⟩,
          ((unpackLayout codec root ends).length : Int)) := by
  have hsz : sizeofInt = 4 := rfl
  have hrpos : 0 < root.length := List.length_pos.2 hroot
  have hcount := length_le_flatMap_entries ends
  have htotal : (unpackLayout codec root ends).length
      = codec.populatePacketHeader.length + sizeofInt + root.length + sizeofInt
        + (ends.flatMap (fun e => encodeLE sizeofInt e.length ++ e)).length := by
    simp only [unpackLayout, List.length_append, encodeLE_length]
  rw [htotal] at hfit
  generalize hmemdef : unpackLayout codec root ends ++ trailing = mem
  have hmem1 : mem = codec.populatePacketHeader ++ (encodeLE sizeofInt root.length
      ++ (root ++ (encodeLE sizeofInt ends.length
        ++ (ends.flatMap (fun e => encodeLE sizeofInt e.length ++ e) ++ trailing)))) := by
    rw [← hmemdef]
    simp only [unpackLayout, List.append_assoc]
  have hmem2 : mem = (codec.populatePacketHeader ++ encodeLE sizeofInt root.length)
      ++ (root ++ (encodeLE sizeofInt ends.length
        ++ (ends.flatMap (fun e => encodeLE sizeofInt e.length ++ e) ++ trailing))) := by
    rw [hmem1]
    simp only [List.append_assoc]
  have hmem3 : mem = (codec.populatePacketHeader ++ encodeLE sizeofInt root.length ++ root)
      ++ (encodeLE sizeofInt ends.length
        ++ (ends.flatMap (fun e => encodeLE sizeofInt e.length ++ e) ++ trailing)) := by
    rw [hmem1]
    simp only [List.append_assoc]
  have hmem4 : mem = (codec.populatePacketHeader ++ encodeLE sizeofInt root.length ++ root
        ++ encodeLE sizeofInt ends.length)
      ++ (ends.flatMap (fun e => encodeLE sizeofInt e.length ++ e) ++ trailing) := by
    rw [hmem1]
    simp only [List.append_assoc]
  have hnum : codec.numBytesForPacketHeader mem = codec.populatePacketHeader.length := by
    rw [hmem1]
    exact hc _
  have hread1 := readInt_encodeLE mem codec.populatePacketHeader _ root.length (by omega) hmem1
  have hlen2 : (codec.populatePacketHeader ++ encodeLE sizeofInt root.length).length
      = codec.populatePacketHeader.length + sizeofInt := by
    simp only [List.length_append, encodeLE_length]
  have hlen3 : (codec.populatePacketHeader ++ encodeLE sizeofInt root.length ++ root).length
      = codec.populatePacketHeader.length + sizeofInt + ((root.length : Int)).toNat := by
    simp only [List.length_append, encodeLE_length, Int.toNat_ofNat]
  have hlen4 : (codec.populatePacketHeader ++ encodeLE sizeofInt root.length ++ root
        ++ encodeLE sizeofInt ends.length).length
      = codec.populatePacketHeader.length + sizeofInt + ((root.length : Int)).toNat
        + sizeofInt := by
    simp only [List.length_append, encodeLE_length, Int.toNat_ofNat]
  have hrootread : readBytes mem (codec.populatePacketHeader.length + sizeofInt)
      ((root.length : Int)).toNat = some root := by
    rw [Int.toNat_ofNat, ← hlen2]
    exact readBytes_middle mem _ root _ hmem2
  have hread2 : readInt mem
      (codec.populatePacketHeader.length + sizeofInt + ((root.length : Int)).toNat)
      = some (ends.length : Int) := by
    rw [← hlen3]
    exact readInt_encodeLE mem _ _ ends.length (by omega) hmem3
  have hwrap : wrapInt32 (wrapInt32 (availableBytes - (codec.populatePacketHeader.length : Int))
      - ((sizeofInt : Nat) : Int)) = availableBytes - codec.populatePacketHeader.length - 4 := by
    have h4 : ((sizeofInt : Nat) : Int) = 4 := rfl
    rw [h4, wrapInt32_of_range (availableBytes - (codec.populatePacketHeader.length : Int))
      (by omega) (by omega)]
    exact wrapInt32_of_range _ (by omega) (by omega)
  have hcond : (0 : Int) < (root.length : Int) ∧ (root.length : Int)
      ≤ availableBytes - codec.populatePacketHeader.length - 4 := by
    constructor <;> omega
  have hloop := unpackEndNodes_layout ends mem
    (codec.populatePacketHeader ++ encodeLE sizeofInt root.length ++ root
      ++ encodeLE sizeofInt ends.length) trailing
    (availableBytes - codec.populatePacketHeader.length - 4 - root.length) [] hmem4 hends
    (by omega) (by omega)
  rw [hlen4] at hloop
  have hfinal : wrapInt32 ((codec.populatePacketHeader.length + sizeofInt
      + ((root.length : Int)).toNat + sizeofInt
      + (ends.flatMap (fun e => encodeLE sizeofInt e.length ++ e)).length : Nat) : Int)
      = ((codec.populatePacketHeader.length + sizeofInt + root.length + sizeofInt
        + (ends.flatMap (fun e => encodeLE sizeofInt e.length ++ e)).length : Nat) : Int) := by
    rw [Int.toNat_ofNat]
    exact wrapInt32_of_range _ (by omega) (by omega)
  rw [unpackFromMessage_eq, hnum, hread1, Option.some_bind, hwrap, if_pos hcond, hrootread,
    Option.some_bind, hread2, Option.some_bind, Int.toNat_ofNat ends.length, hloop,
    Option.some_bind, htotal]
  simp only [hfinal, clear, List.nil_append]

/-- C27 on a buffer with root [1, 64] and the end nodes [2, 76] and [2, 88], followed by
three bytes that do not belong to the message. -/
theorem unpackFromMessage_unpackLayout_witness :
    unpackLayout (fixedHeaderCodec [74, 1]) [1, 64] [[2, 76], [2, 88]]
      = [74, 1] ++ [2, 0, 0, 0] ++ [1, 64] ++ [2, 0, 0, 0]
          ++ ([2, 0, 0, 0] ++ [2, 76] ++ ([2, 0, 0, 0] ++ [2, 88]))
    ∧ unpackFromMessage (fixedHeaderCodec [74, 1]) (ofNodeType 86)
        (unpackLayout (fixedHeaderCodec [74, 1]) [1, 64] [[2, 76], [2, 88]] ++ [9, 9, 9]) 24
      = some (⟨86, some [1, 64], [some [2, 76], some [2, 88]]⟩, 24) :=
  ⟨by decide,
    unpackFromMessage_unpackLayout (fixedHeaderCodec [74, 1]) (fun _ => rfl) (ofNodeType 86)
      [1, 64] [[2, 76], [2, 88]] [9, 9, 9] 24 (by decide) (by decide) (by decide)
      (by decide)⟩

end JurisdictionMap
